import Mathlib

/-!
Shallow embedding of the `lob_view` order-book client (`src/api.rs`).

Modelling choices:
* Rust `f64` is modelled by `Fp`: an exact rational extended with `nan`,
  `inf` and `ninf`.  The claims under verification are about the structure
  of the level lists (removal, replacement, insertion, sorting), not about
  binary rounding, so exact rationals are adequate; `nan` is kept because
  Rust float comparison semantics (`==` is false on NaN, `partial_cmp`
  returns `None`) are observable in the code.
* `str::parse::<f64>()` is modelled by `parseF64`, a decimal-notation
  parser over the same grammar Rust accepts (optional sign, digits with
  optional fraction and exponent, case-insensitive `inf`/`infinity`/`nan`),
  returning `none` exactly when Rust's parse returns `Err`.
* A Rust panic (the `partial_cmp(..).unwrap()` in the sort comparators,
  reachable when a price is NaN) is modelled by an `Option` result: `none`
  means the operation aborts with a panic instead of returning a book.
* `Vec::sort_by` (a stable sort) is modelled by a stable insertion sort
  threaded through `Option`, so that a comparator returning `none`
  (i.e. an `unwrap` panic) aborts the sort.  On inputs where the comparator
  is total the result agrees with any stable sort.
* `HashMap<String, _>` is modelled by an association list with
  insert-replacing-existing-key semantics; a `broadcast` channel is
  modelled by the list of events published on it.
* `String::to_lowercase` is modelled by ASCII lowercasing (`strLower`),
  which agrees with Rust on the ASCII symbols appearing in the claims.
-/

/-- Model of an `f64` value: exact rational, or NaN, or an infinity. -/
inductive Fp where
  | nan : Fp
  | ninf : Fp
  | inf : Fp
  | num : ℚ → Fp
deriving DecidableEq, Repr

/-- Rust `f64` equality (`==`): NaN is equal to nothing, including itself. -/
def Fp.beq : Fp → Fp → Bool
  | .nan, _ => false
  | _, .nan => false
  | .ninf, .ninf => true
  | .inf, .inf => true
  | .num a, .num b => decide (a = b)
  | _, _ => false

/-- Three-way comparison of rationals. -/
def qcmp (a b : ℚ) : Ordering :=
  if a < b then .lt else if b < a then .gt else .eq

/-- Rust `PartialOrd::partial_cmp` on `f64`: `none` iff a NaN is involved. -/
def Fp.cmpo : Fp → Fp → Option Ordering
  | .nan, _ => none
  | _, .nan => none
  | .ninf, .ninf => some .eq
  | .ninf, _ => some .lt
  | _, .ninf => some .gt
  | .inf, .inf => some .eq
  | .inf, _ => some .gt
  | _, .inf => some .lt
  | .num a, .num b => some (qcmp a b)

/-- Rust `a > b` on `f64` (false whenever a NaN is involved). -/
def fpGt (a b : Fp) : Bool := Fp.cmpo a b = some .gt

/-- Rust `a < b` on `f64` (false whenever a NaN is involved). -/
def fpLt (a b : Fp) : Bool := Fp.cmpo a b = some .lt

/-- Rust `a <= b` on `f64` (false whenever a NaN is involved). -/
def fpLe (a b : Fp) : Bool := Fp.cmpo a b = some .lt ∨ Fp.cmpo a b = some .eq

/-- ASCII lowercasing of one character, as Rust `to_lowercase` acts on ASCII. -/
def charLower (c : Char) : Char :=
  if c.isUpper then Char.ofNat (c.toNat + 32) else c

/-- ASCII model of Rust `String::to_lowercase`. -/
def strLower (s : String) : String := ⟨s.data.map charLower⟩

/-- Numeric value of a digit string. -/
def digitsToNat (cs : List Char) : Nat :=
  cs.foldl (fun a c => a * 10 + (c.toNat - 48)) 0

/-- Exponent suffix of a float literal (after the `e`/`E`): `[sign] digits`,
consuming the whole remainder; `none` otherwise. -/
def parseExpInt (t : List Char) : Option ℤ :=
  let (eneg, t2) :=
    match t with
    | '+' :: r => (false, r)
    | '-' :: r => (true, r)
    | r => (false, r)
  let ds := t2.takeWhile Char.isDigit
  if ds.isEmpty ∨ ds.length ≠ t2.length then none
  else
    some (if eneg then -(digitsToNat ds : ℤ) else (digitsToNat ds : ℤ))

/-- The rational `± digits · 10^e / 10^fplen`, built with `mkRat` so that it
evaluates by kernel reduction. -/
def ratOfParts (neg : Bool) (digits fplen : Nat) (e : ℤ) : ℚ :=
  let q :=
    if 0 ≤ e then mkRat (digits * 10 ^ e.toNat : ℕ) (10 ^ fplen)
    else mkRat (digits : ℕ) (10 ^ (fplen + (-e).toNat))
  if neg then Rat.neg q else q

/-- Model of Rust `str::parse::<f64>()`: optional sign, then case-insensitive
`inf`/`infinity`/`nan` or `digits [. digits] [(e|E) [sign] digits]` with at
least one mantissa digit; anything else fails. -/
def parseF64 (s : String) : Option Fp :=
  let (neg, cs) :=
    match s.data with
    | '+' :: t => (false, t)
    | '-' :: t => (true, t)
    | cs => (false, cs)
  let low := cs.map charLower
  if low = "inf".data ∨ low = "infinity".data then
    some (if neg then Fp.ninf else Fp.inf)
  else if low = "nan".data then
    some Fp.nan
  else
    let ip := cs.takeWhile Char.isDigit
    let r1 := cs.dropWhile Char.isDigit
    let (fp, r2) :=
      match r1 with
      | '.' :: t => (t.takeWhile Char.isDigit, t.dropWhile Char.isDigit)
      | _ => (([] : List Char), r1)
    if ip.isEmpty ∧ fp.isEmpty then none
    else
      let digits := digitsToNat (ip ++ fp)
      match r2 with
      | [] => some (Fp.num (ratOfParts neg digits fp.length 0))
      | 'e' :: t => (parseExpInt t).map (fun e => Fp.num (ratOfParts neg digits fp.length e))
      | 'E' :: t => (parseExpInt t).map (fun e => Fp.num (ratOfParts neg digits fp.length e))
      | _ => none

/-- `OrderBookLevel` of `api.rs`. -/
structure OrderBookLevel where
  price : Fp
  quantity : Fp
deriving DecidableEq, Repr

/-- `OrderBookUpdateType` of `api.rs`. -/
inductive OrderBookUpdateType where
  | Snapshot : OrderBookUpdateType
  | Delta : OrderBookUpdateType
deriving DecidableEq, Repr

/-- `OrderBook` of `api.rs`; the `chrono` timestamp is modelled as a `Nat`. -/
structure OrderBook where
  symbol : String
  last_update_id : Nat
  bids : List OrderBookLevel
  asks : List OrderBookLevel
  update_type : OrderBookUpdateType
  timestamp : Nat
deriving DecidableEq, Repr

/-- `OrderBookEvent` of `api.rs`. -/
structure OrderBookEvent where
  orderbook : OrderBook
  event_type : OrderBookUpdateType
deriving DecidableEq, Repr

/-- `BinanceDepthUpdate` of `api.rs` (a deserialized depth-update frame);
each raw level is a `(price string, quantity string)` pair. -/
structure BinanceDepthUpdate where
  event_type : String
  event_time : Nat
  symbol : String
  first_update_id : Nat
  final_update_id : Nat
  bids : List (String × String)
  asks : List (String × String)
deriving DecidableEq, Repr

/-- `BinanceOrderBookSnapshot` of `api.rs` (a deserialized REST response). -/
structure BinanceOrderBookSnapshot where
  last_update_id : Nat
  bids : List (String × String)
  asks : List (String × String)
deriving DecidableEq, Repr

/-- `BinanceError` of `api.rs`; payloads of the transported errors are kept
as strings. -/
inductive BinanceError where
  | WebSocketError : String → BinanceError
  | UrlParseError : String → BinanceError
  | SerdeError : String → BinanceError
  | HttpError : String → BinanceError
  | InvalidSymbol : String → BinanceError
  | ChannelError : BinanceError
  | NoOrderBookStream : String → BinanceError
deriving DecidableEq, Repr

instance {ε α : Type} [DecidableEq ε] [DecidableEq α] : DecidableEq (Except ε α) :=
  fun a b =>
    match a, b with
    | .ok x, .ok y => decidable_of_iff (x = y) (by simp)
    | .error e, .error f => decidable_of_iff (e = f) (by simp)
    | .ok _, .error _ => isFalse (by simp)
    | .error _, .ok _ => isFalse (by simp)

/-- The price of the first pair component, as `update_levels` parses it. -/
def parsedPrice (u : String × String) : Fp := (parseF64 u.1).getD (Fp.num 0)

/-- The quantity of the second pair component, as `update_levels` parses it. -/
def parsedQty (u : String × String) : Fp := (parseF64 u.2).getD (Fp.num 0)

/-- The `retain(|level| level.price != price)` call of `update_levels`. -/
def removeLevel (p : Fp) (ls : List OrderBookLevel) : List OrderBookLevel :=
  ls.filter (fun lv => !(Fp.beq lv.price p))

/-- The find-and-update loop of `update_levels`: replace the quantity of the
first level whose price Rust-equals `p`; the flag reports whether one was
found. -/
def setFirstQty (p q : Fp) : List OrderBookLevel → List OrderBookLevel × Bool
  | [] => ([], false)
  | lv :: t =>
    if Fp.beq lv.price p then ({ lv with quantity := q } :: t, true)
    else
      let r := setFirstQty p q t
      (lv :: r.1, r.2)

/-- One iteration of the `for update in updates` loop of `update_levels`. -/
def applyPair (ls : List OrderBookLevel) (u : String × String) : List OrderBookLevel :=
  let price := parsedPrice u
  let quantity := parsedQty u
  if Fp.beq quantity (Fp.num 0) then removeLevel price ls
  else
    let r := setFirstQty price quantity ls
    if r.2 then r.1 else ls ++ [⟨price, quantity⟩]

/-- Stable insertion of `x` into `l` under a partial comparator: `x` is
placed before the first element strictly greater than it; `none` models the
`unwrap` panic when the comparator is undefined on a compared pair. -/
def insOpt (c : OrderBookLevel → OrderBookLevel → Option Ordering) (x : OrderBookLevel) :
    List OrderBookLevel → Option (List OrderBookLevel)
  | [] => some [x]
  | y :: t =>
    match c x y with
    | none => none
    | some .lt => some (x :: y :: t)
    | some _ => (insOpt c x t).map (fun t' => y :: t')

/-- Stable sort under a partial comparator; `none` models a comparator
`unwrap` panic during `Vec::sort_by`. -/
def sortOpt (c : OrderBookLevel → OrderBookLevel → Option Ordering) (l : List OrderBookLevel) :
    Option (List OrderBookLevel) :=
  l.foldlM (fun acc x => insOpt c x acc) []

/-- The sort comparator of `update_levels`: descending on prices for bids
(`b.price.partial_cmp(&a.price)`), ascending for asks. -/
def lvlCmp (isBid : Bool) (a b : OrderBookLevel) : Option Ordering :=
  if isBid then Fp.cmpo b.price a.price else Fp.cmpo a.price b.price

/-- `BinanceClient::update_levels`: apply every `(price, quantity)` pair in
order, then re-sort the side; `none` models the comparator panic. -/
def update_levels (ls : List OrderBookLevel) (updates : List (String × String))
    (isBid : Bool) : Option (List OrderBookLevel) :=
  sortOpt (lvlCmp isBid) (updates.foldl applyPair ls)

/-- The per-book part of `handle_ws_message` (lines 312–327 of `api.rs`):
reject a stale update, otherwise bump `last_update_id`, merge both sides,
and mark the book as a delta at time `now`.  The `Bool` reports whether the
update was applied. -/
def applyDepthUpdate (b : OrderBook) (u : BinanceDepthUpdate) (now : Nat) :
    Option (OrderBook × Bool) :=
  if u.final_update_id ≤ b.last_update_id then some (b, false)
  else
    match update_levels b.bids u.bids true with
    | none => none
    | some bids' =>
      match update_levels b.asks u.asks false with
      | none => none
      | some asks' =>
        some ({ b with
                  last_update_id := u.final_update_id
                  bids := bids'
                  asks := asks'
                  update_type := .Delta
                  timestamp := now }, true)

/-- Association-list insert with `HashMap::insert` semantics: replace the
binding of an existing key, otherwise add a new one. -/
def alistInsert {α : Type} (k : String) (v : α) : List (String × α) → List (String × α)
  | [] => [(k, v)]
  | (k', v') :: t => if k' = k then (k, v) :: t else (k', v') :: alistInsert k v t

/-- The shared state of `BinanceClient`: the order-book store and, per
symbol, the list of events published on its broadcast channel. -/
structure ClientState where
  orderbooks : List (String × OrderBook)
  orderbook_streams : List (String × List OrderBookEvent)
deriving DecidableEq, Repr

/-- `BinanceClient::handle_ws_message` on an already-deserialized depth
update: drop the frame when no book exists for the lowercased symbol,
otherwise apply the update; on acceptance store the new book and publish a
Delta event to the symbol's channel when one exists.  The returned list is
the events published by this call; `none` models a panic inside
`update_levels`. -/
def handle_ws_message (st : ClientState) (u : BinanceDepthUpdate) (now : Nat) :
    Option (ClientState × List OrderBookEvent) :=
  match st.orderbooks.lookup (strLower u.symbol) with
  | none => some (st, [])
  | some b =>
    match applyDepthUpdate b u now with
    | none => none
    | some (b', applied) =>
      if applied then
        let key := strLower u.symbol
        let books' := alistInsert key b' st.orderbooks
        match st.orderbook_streams.lookup key with
        | some evs =>
          let ev : OrderBookEvent := ⟨b', .Delta⟩
          some (⟨books', alistInsert key (evs ++ [ev]) st.orderbook_streams⟩, [ev])
        | none => some ({ st with orderbooks := books' }, [])
      else some (st, [])

/-- The per-level body of the snapshot-conversion loops of
`fetch_orderbook_snapshot`: parse the pair with a 0.0 fallback and keep the
level only when its quantity is positive. -/
def keepLevel (pr : String × String) : Option OrderBookLevel :=
  if fpGt (parsedQty pr) (Fp.num 0) then
    some ⟨parsedPrice pr, parsedQty pr⟩
  else none

/-- The response-conversion part of `fetch_orderbook_snapshot` (lines
420–463 of `api.rs`): keep the positive-quantity levels of the response,
sort bids descending and asks ascending; `none` models the comparator
panic. -/
def convertSnapshot (symbol : String) (resp : BinanceOrderBookSnapshot) (now : Nat) :
    Option OrderBook :=
  match sortOpt (lvlCmp true) (resp.bids.filterMap keepLevel) with
  | none => none
  | some bids' =>
    match sortOpt (lvlCmp false) (resp.asks.filterMap keepLevel) with
    | none => none
    | some asks' =>
      some ⟨symbol, resp.last_update_id, bids', asks', .Snapshot, now⟩

/-- Outcome of a `subscribe` call: the new client state, the returned
result, whether the snapshot fetch (the only network operation before the
WebSocket send) was attempted, the symbols sent to the WebSocket task, and
the events this call published. -/
structure SubscribeOutcome where
  state : ClientState
  result : Except BinanceError Unit
  fetch_attempted : Bool
  ws_sent : List String
  published : List OrderBookEvent
deriving DecidableEq, Repr

/-- `BinanceClient::subscribe`, with the snapshot fetch abstracted as the
oracle `fetch` (its argument is the lowercased symbol, as in the source):
reject an empty symbol before any network interaction, otherwise create the
symbol's broadcast channel if absent, fetch and store the snapshot under
the lowercased symbol, publish a Snapshot event, and hand the lowercased
symbol to the WebSocket task. -/
def subscribe (st : ClientState) (symbol : String)
    (fetch : String → Except BinanceError OrderBook) : SubscribeOutcome :=
  if symbol.isEmpty then
    ⟨st, .error (.InvalidSymbol symbol), false, [], []⟩
  else
    let symbol_lower := strLower symbol
    let streams1 :=
      if (st.orderbook_streams.lookup symbol_lower).isSome then st.orderbook_streams
      else alistInsert symbol_lower [] st.orderbook_streams
    match fetch symbol_lower with
    | .error e => ⟨⟨st.orderbooks, streams1⟩, .error e, true, [], []⟩
    | .ok snapshot =>
      let books' := alistInsert symbol_lower snapshot st.orderbooks
      let ev : OrderBookEvent := ⟨snapshot, .Snapshot⟩
      let streams2 :=
        match streams1.lookup symbol_lower with
        | some evs => alistInsert symbol_lower (evs ++ [ev]) streams1
        | none => streams1
      ⟨⟨books', streams2⟩, .ok (), true, [symbol_lower], [ev]⟩

/-- `BinanceClient::get_orderbook`: plain lookup under the symbol as given. -/
def get_orderbook (st : ClientState) (symbol : String) : Option OrderBook :=
  st.orderbooks.lookup symbol

/-- `BinanceClient::orderbook_stream`: a receiver for the symbol's channel
(modelled by the channel's event list) or a `NoOrderBookStream` error. -/
def orderbook_stream (st : ClientState) (symbol : String) :
    Except BinanceError (List OrderBookEvent) :=
  match st.orderbook_streams.lookup symbol with
  | some evs => .ok evs
  | none => .error (.NoOrderBookStream symbol)

/-- Sequential application of timed depth updates to one book, recording
the `final_update_id` of every accepted update. -/
def applyDepthUpdates (b : OrderBook) :
    List (BinanceDepthUpdate × Nat) → Option (OrderBook × List Nat)
  | [] => some (b, [])
  | (u, now) :: t =>
    match applyDepthUpdate b u now with
    | none => none
    | some (b', applied) =>
      match applyDepthUpdates b' t with
      | none => none
      | some (b'', acc) =>
        some (b'', if applied then u.final_update_id :: acc else acc)

/-! ### Comparison helper lemmas -/

theorem qcmp_eq_lt {a b : ℚ} : qcmp a b = .lt ↔ a < b := by
  rcases lt_trichotomy a b with h | h | h
  · simp [qcmp, h]
  · simp [qcmp, h]
  · simp [qcmp, lt_asymm h, h]

theorem qcmp_eq_gt {a b : ℚ} : qcmp a b = .gt ↔ b < a := by
  rcases lt_trichotomy a b with h | h | h
  · simp [qcmp, h, lt_asymm h]
  · simp [qcmp, h]
  · simp [qcmp, lt_asymm h, h]

theorem qcmp_eq_eq {a b : ℚ} : qcmp a b = .eq ↔ a = b := by
  rcases lt_trichotomy a b with h | h | h
  · simp [qcmp, h, ne_of_lt h]
  · simp [qcmp, h]
  · simp [qcmp, lt_asymm h, h, ne_of_gt h]

theorem qcmp_swap (a b : ℚ) : qcmp a b = (qcmp b a).swap := by
  rcases lt_trichotomy a b with h | h | h
  · rw [qcmp_eq_lt.mpr h, qcmp_eq_gt.mpr h]
    rfl
  · rw [qcmp_eq_eq.mpr h, qcmp_eq_eq.mpr h.symm]
    rfl
  · rw [qcmp_eq_gt.mpr h, qcmp_eq_lt.mpr h]
    rfl

theorem Fp.cmpo_swap (a b : Fp) : Fp.cmpo a b = (Fp.cmpo b a).map Ordering.swap := by
  cases a <;> cases b <;> try rfl
  simp only [Fp.cmpo]
  rw [qcmp_swap]
  rfl

theorem Fp.cmpo_none_iff {a b : Fp} : Fp.cmpo a b = none ↔ a = Fp.nan ∨ b = Fp.nan := by
  cases a <;> cases b <;> simp [Fp.cmpo]

theorem Fp.cmpo_eq_eq {a b : Fp} (h : Fp.cmpo a b = some .eq) : a = b := by
  cases a <;> cases b <;> simp_all [Fp.cmpo, qcmp_eq_eq]

theorem Fp.cmpo_lt_trans {a b c : Fp} (h1 : Fp.cmpo a b = some .lt)
    (h2 : Fp.cmpo b c = some .lt) : Fp.cmpo a c = some .lt := by
  cases a <;> cases b <;> cases c <;> simp_all [Fp.cmpo, qcmp_eq_lt]
  exact lt_trans h1 h2

theorem Fp.beq_eq_true_iff {a b : Fp} : Fp.beq a b = true ↔ a = b ∧ a ≠ Fp.nan := by
  cases a <;> cases b <;> simp [Fp.beq]

theorem Fp.beq_symm (a b : Fp) : Fp.beq a b = Fp.beq b a := by
  cases a <;> cases b <;> simp [Fp.beq, eq_comm]

/-! ### C7: empty symbol is rejected before any network interaction -/

/-- C7: `subscribe("")` returns an InvalidSymbol error with the client state
untouched (no channel, no store entry), without attempting the snapshot
fetch and without contacting the WebSocket task. -/
theorem subscribe_empty_symbol_rejected (st : ClientState)
    (fetch : String → Except BinanceError OrderBook) :
    subscribe st "" fetch =
      ⟨st, .error (.InvalidSymbol ""), false, [], []⟩ := rfl

/-! ### C1: stale depth updates are rejected without any effect -/

/-- C1: when the stored book for the update's (lowercased) symbol has
`last_update_id` at least the update's `final_update_id`, handling the
frame leaves the whole client state (the book with all its fields, and
every stream channel) unchanged and publishes no event. -/
theorem stale_update_rejected (st : ClientState) (u : BinanceDepthUpdate) (now : Nat)
    (b : OrderBook) (hb : st.orderbooks.lookup (strLower u.symbol) = some b)
    (hle : u.final_update_id ≤ b.last_update_id) :
    handle_ws_message st u now = some (st, []) := by
  simp [handle_ws_message, hb, applyDepthUpdate, hle]

theorem stale_update_rejected_w :
    handle_ws_message
      ⟨[("btcusdt", ⟨"btcusdt", 100, [], [], .Snapshot, 0⟩)],
       [("btcusdt", [])]⟩
      ⟨"depthUpdate", 0, "BTCUSDT", 90, 99, [("50000", "1")], []⟩ 7 =
    some (⟨[("btcusdt", ⟨"btcusdt", 100, [], [], .Snapshot, 0⟩)],
           [("btcusdt", [])]⟩, []) :=
  stale_update_rejected _ _ _ ⟨"btcusdt", 100, [], [], .Snapshot, 0⟩
    (by decide) (by decide)

/-! ### C10: frames for unknown symbols are silently dropped -/

/-- C10: a depth-update frame whose lowercased symbol has no book in the
store is a no-op: the store and every stream channel are unchanged and no
event is published. -/
theorem unknown_symbol_frame_dropped (st : ClientState) (u : BinanceDepthUpdate)
    (now : Nat) (h : st.orderbooks.lookup (strLower u.symbol) = none) :
    handle_ws_message st u now = some (st, []) := by
  simp [handle_ws_message, h]

theorem unknown_symbol_frame_dropped_w :
    handle_ws_message ⟨[], [("ethusdt", [])]⟩
      ⟨"depthUpdate", 0, "ETHUSDT", 1, 2, [("1", "1")], []⟩ 3 =
    some (⟨[], [("ethusdt", [])]⟩, []) :=
  unknown_symbol_frame_dropped _ _ _ (by decide)

/-! ### C9: NaN prices make level processing abort (modelled panic) -/

/-- C9: level processing is not total: the string "NaN" parses successfully
to NaN (so the 0.0 fallback does not apply), and a NaN price reaching a
sort comparator makes the `partial_cmp` unwrap panic — modelled as the
`none` result — aborting the delta application or the snapshot conversion
instead of absorbing the value. -/
theorem nan_price_aborts_processing :
    parseF64 "NaN" = some Fp.nan ∧
    update_levels [⟨Fp.num 1, Fp.num 1⟩] [("NaN", "2")] true = none ∧
    convertSnapshot "x" ⟨1, [("NaN", "1"), ("2", "1")], []⟩ 0 = none := by
  refine ⟨by decide, by decide, by decide⟩

/-! ### Helper lemmas about the per-pair merge step -/

theorem setFirstQty_map_price (p q : Fp) (l : List OrderBookLevel) :
    (setFirstQty p q l).1.map (fun lv => lv.price) = l.map (fun lv => lv.price) := by
  induction l with
  | nil => rfl
  | cons lv t ih =>
    by_cases h : Fp.beq lv.price p = true
    · simp [setFirstQty, h]
    · simp only [Bool.not_eq_true] at h
      simp [setFirstQty, h, ih]

theorem setFirstQty_snd (p q : Fp) (l : List OrderBookLevel) :
    (setFirstQty p q l).2 = l.any (fun lv => Fp.beq lv.price p) := by
  induction l with
  | nil => rfl
  | cons lv t ih =>
    by_cases h : Fp.beq lv.price p = true
    · simp [setFirstQty, h]
    · simp only [Bool.not_eq_true] at h
      simp [setFirstQty, h, ih]

theorem setFirstQty_eq_map (p q : Fp) (l : List OrderBookLevel)
    (hc : l.countP (fun lv => Fp.beq lv.price p) ≤ 1) :
    (setFirstQty p q l).1 =
      l.map (fun lv => if Fp.beq lv.price p then { lv with quantity := q } else lv) := by
  induction l with
  | nil => rfl
  | cons lv t ih =>
    by_cases h : Fp.beq lv.price p = true
    · rw [List.countP_cons_of_pos _ _ (by simpa using h)] at hc
      have ht : t.countP (fun lv => Fp.beq lv.price p) = 0 := by omega
      rw [List.countP_eq_zero] at ht
      have hmap : t.map (fun lv => if Fp.beq lv.price p then { lv with quantity := q } else lv) = t := by
        conv_rhs => rw [← List.map_id t]
        refine List.map_congr_left (fun x hx => ?_)
        simp [ht x hx]
      simp [setFirstQty, h, hmap]
    · simp only [Bool.not_eq_true] at h
      rw [List.countP_cons_of_neg _ _ (by simp [h])] at hc
      simp [setFirstQty, h, ih hc]

/-! ### C6: per-pair merge semantics and Scenario A -/

/-- C6: for a pair of an accepted delta — a quantity parsing to 0 removes
every level at that price (and is a no-op when none exists); a non-zero
quantity replaces the quantity of the existing level at that price (stated
through the at-most-one-match hypothesis that holds for price-unique
sides), or appends a new level when none exists.  Scenario A: on the book
with `last_update_id` 100, best bid (50000, 1.0) and ask (50010, 2.0), the
delta with `u:101` and bid pair (50000, "0") removes the 50000 bid level
and sets `last_update_id` to 101. -/
theorem pair_merge_semantics :
    (∀ (ls : List OrderBookLevel) (u : String × String),
        Fp.beq (parsedQty u) (Fp.num 0) = true →
        applyPair ls u = removeLevel (parsedPrice u) ls)
    ∧
    (∀ (ls : List OrderBookLevel) (u : String × String),
        Fp.beq (parsedQty u) (Fp.num 0) = true →
        (∀ lv ∈ ls, Fp.beq lv.price (parsedPrice u) = false) →
        applyPair ls u = ls)
    ∧
    (∀ (ls : List OrderBookLevel) (u : String × String),
        Fp.beq (parsedQty u) (Fp.num 0) = false →
        ls.countP (fun lv => Fp.beq lv.price (parsedPrice u)) ≤ 1 →
        (∃ lv ∈ ls, Fp.beq lv.price (parsedPrice u) = true) →
        applyPair ls u =
          ls.map (fun lv =>
            if Fp.beq lv.price (parsedPrice u) then { lv with quantity := parsedQty u }
            else lv))
    ∧
    (∀ (ls : List OrderBookLevel) (u : String × String),
        Fp.beq (parsedQty u) (Fp.num 0) = false →
        (∀ lv ∈ ls, Fp.beq lv.price (parsedPrice u) = false) →
        applyPair ls u = ls ++ [⟨parsedPrice u, parsedQty u⟩])
    ∧
    applyDepthUpdate
        ⟨"btcusdt", 100, [⟨Fp.num 50000, Fp.num 1⟩], [⟨Fp.num 50010, Fp.num 2⟩], .Snapshot, 0⟩
        ⟨"depthUpdate", 0, "BTCUSDT", 95, 101, [("50000", "0")], []⟩ 1 =
      some (⟨"btcusdt", 101, [], [⟨Fp.num 50010, Fp.num 2⟩], .Delta, 1⟩, true) := by
  refine ⟨?_, ?_, ?_, ?_, by decide⟩
  · intro ls u h
    simp [applyPair, h]
  · intro ls u h habs
    rw [applyPair]
    simp only [h, if_pos]
    rw [removeLevel, List.filter_eq_self]
    intro lv hlv
    simp [habs lv hlv]
  · intro ls u h hc hex
    have hany : ls.any (fun lv => Fp.beq lv.price (parsedPrice u)) = true := by
      rcases hex with ⟨lv, hlv, hb⟩
      exact List.any_eq_true.mpr ⟨lv, hlv, hb⟩
    rw [applyPair]
    simp only [h, Bool.false_eq_true, if_false, setFirstQty_snd, hany, if_true]
    exact setFirstQty_eq_map _ _ _ hc
  · intro ls u h habs
    have hany : ls.any (fun lv => Fp.beq lv.price (parsedPrice u)) = false := by
      rw [List.any_eq_false]
      intro lv hlv
      simp [habs lv hlv]
    rw [applyPair]
    simp only [h, Bool.false_eq_true, if_false, setFirstQty_snd, hany]

theorem pair_merge_semantics_w :
    applyPair [⟨Fp.num 2, Fp.num 3⟩] ("2", "0") =
      removeLevel (parsedPrice ("2", "0")) [⟨Fp.num 2, Fp.num 3⟩] ∧
    applyPair [⟨Fp.num 2, Fp.num 3⟩] ("5", "0") = [⟨Fp.num 2, Fp.num 3⟩] ∧
    applyPair [⟨Fp.num 2, Fp.num 3⟩] ("2", "7") =
      [(⟨Fp.num 2, Fp.num 3⟩ : OrderBookLevel)].map (fun lv =>
        if Fp.beq lv.price (parsedPrice ("2", "7")) then { lv with quantity := parsedQty ("2", "7") }
        else lv) ∧
    applyPair [⟨Fp.num 2, Fp.num 3⟩] ("5", "7") =
      [⟨Fp.num 2, Fp.num 3⟩] ++ [⟨parsedPrice ("5", "7"), parsedQty ("5", "7")⟩] :=
  ⟨pair_merge_semantics.1 _ _ (by decide),
   pair_merge_semantics.2.1 _ _ (by decide) (by decide),
   pair_merge_semantics.2.2.1 _ _ (by decide) (by decide) (by decide),
   pair_merge_semantics.2.2.2.1 _ _ (by decide) (by decide)⟩

/-! ### C4: monotonicity of `last_update_id` -/

theorem applyDepthUpdate_shape (b : OrderBook) (u : BinanceDepthUpdate) (now : Nat)
    (r : OrderBook × Bool) (h : applyDepthUpdate b u now = some r) :
    (u.final_update_id ≤ b.last_update_id ∧ r = (b, false)) ∨
    (b.last_update_id < u.final_update_id ∧ r.1.last_update_id = u.final_update_id ∧
      r.2 = true) := by
  unfold applyDepthUpdate at h
  by_cases hle : u.final_update_id ≤ b.last_update_id
  · rw [if_pos hle] at h
    exact Or.inl ⟨hle, (Option.some_inj.mp h).symm⟩
  · rw [if_neg hle] at h
    rcases hb : update_levels b.bids u.bids true with _ | bids'
    · rw [hb] at h
      simp at h
    rcases ha : update_levels b.asks u.asks false with _ | asks'
    · rw [hb, ha] at h
      simp at h
    rw [hb, ha] at h
    have h2 := (Option.some_inj.mp h).symm
    rw [h2]
    exact Or.inr ⟨not_le.mp hle, rfl, rfl⟩

theorem applyDepthUpdates_last (b : OrderBook) (us : List (BinanceDepthUpdate × Nat))
    (b' : OrderBook) (acc : List Nat)
    (h : applyDepthUpdates b us = some (b', acc)) :
    b.last_update_id ≤ b'.last_update_id ∧
    b'.last_update_id = acc.foldl Nat.max b.last_update_id := by
  induction us generalizing b acc with
  | nil =>
    simp [applyDepthUpdates] at h
    rw [← h.1, h.2]
    simp
  | cons p t ih =>
    rcases p with ⟨u, now⟩
    unfold applyDepthUpdates at h
    split at h
    · simp at h
    rename_i b1 applied h1
    split at h
    · simp at h
    rename_i b2 acc1 h2
    have h3 := Option.some_inj.mp h
    have hb2 : b2 = b' := congrArg Prod.fst h3
    have hacc : (if applied = true then u.final_update_id :: acc1 else acc1) = acc :=
      congrArg Prod.snd h3
    subst hb2
    rcases applyDepthUpdate_shape b u now (b1, applied) h1 with ⟨hle, heq⟩ | ⟨hlt, hlast, happ⟩
    · have hb1 : b1 = b := congrArg Prod.fst heq
      have hap : applied = false := congrArg Prod.snd heq
      rw [hap] at hacc
      simp only [Bool.false_eq_true, if_false] at hacc
      rw [← hacc]
      rw [hb1] at h2
      exact ih b acc1 h2
    · simp only at hlast happ
      rw [happ] at hacc
      simp only [if_pos] at hacc
      rw [← hacc]
      have hih2 := ih b1 acc1 h2
      have hmax : Nat.max b.last_update_id u.final_update_id = u.final_update_id :=
        Nat.max_eq_right (Nat.le_of_lt hlt)
      constructor
      · exact le_trans (le_of_lt hlt) (hlast ▸ hih2.1)
      · rw [List.foldl_cons, hmax, hih2.2, hlast]

/-- C4: across any sequence of delta applications to one book,
`last_update_id` never decreases; after the sequence it equals the running
maximum of the snapshot value and the `final_update_id`s of the accepted
updates; and an update whose `final_update_id` does not exceed the current
value is rejected with the whole book unchanged. -/
theorem last_update_id_monotone (b : OrderBook) (us : List (BinanceDepthUpdate × Nat))
    (b' : OrderBook) (acc : List Nat) (u : BinanceDepthUpdate) (now : Nat)
    (h : applyDepthUpdates b us = some (b', acc))
    (hrej : u.final_update_id ≤ b'.last_update_id) :
    b.last_update_id ≤ b'.last_update_id ∧
    b'.last_update_id = acc.foldl Nat.max b.last_update_id ∧
    applyDepthUpdate b' u now = some (b', false) := by
  refine ⟨(applyDepthUpdates_last b us b' acc h).1, (applyDepthUpdates_last b us b' acc h).2, ?_⟩
  unfold applyDepthUpdate
  rw [if_pos hrej]

theorem last_update_id_monotone_w :
    (⟨"s", 100, [], [], .Snapshot, 0⟩ : OrderBook).last_update_id ≤
      (⟨"s", 101, [], [], .Delta, 1⟩ : OrderBook).last_update_id ∧
    (⟨"s", 101, [], [], .Delta, 1⟩ : OrderBook).last_update_id =
      [101].foldl Nat.max (⟨"s", 100, [], [], .Snapshot, 0⟩ : OrderBook).last_update_id ∧
    applyDepthUpdate ⟨"s", 101, [], [], .Delta, 1⟩ ⟨"depthUpdate", 0, "S", 40, 50, [], []⟩ 3 =
      some (⟨"s", 101, [], [], .Delta, 1⟩, false) :=
  last_update_id_monotone ⟨"s", 100, [], [], .Snapshot, 0⟩
    [(⟨"depthUpdate", 0, "S", 95, 101, [], []⟩, 1), (⟨"depthUpdate", 0, "S", 95, 99, [], []⟩, 2)]
    ⟨"s", 101, [], [], .Delta, 1⟩ [101] ⟨"depthUpdate", 0, "S", 40, 50, [], []⟩ 3
    (by decide) (by decide)

/-! ### Sorting infrastructure -/

/-- Non-strict order induced by a partial comparator. -/
def leO (c : OrderBookLevel → OrderBookLevel → Option Ordering) (a b : OrderBookLevel) : Prop :=
  c a b = some .lt ∨ c a b = some .eq

theorem insOpt_perm (c : OrderBookLevel → OrderBookLevel → Option Ordering)
    (x : OrderBookLevel) :
    ∀ (l out : List OrderBookLevel), insOpt c x l = some out → out.Perm (x :: l) := by
  intro l
  induction l with
  | nil =>
    intro out h
    simp only [insOpt, Option.some_inj] at h
    rw [← h]
  | cons y t ih =>
    intro out h
    simp only [insOpt] at h
    rcases hc : c x y with _ | o
    · rw [hc] at h
      simp at h
    rw [hc] at h
    cases o with
    | lt =>
      simp only [Option.some_inj] at h
      rw [← h]
    | eq =>
      rcases Option.map_eq_some'.mp h with ⟨t', ht', hout⟩
      rw [← hout]
      exact (List.Perm.cons y (ih t' ht')).trans (List.Perm.swap x y t)
    | gt =>
      rcases Option.map_eq_some'.mp h with ⟨t', ht', hout⟩
      rw [← hout]
      exact (List.Perm.cons y (ih t' ht')).trans (List.Perm.swap x y t)

theorem sortOpt_aux_perm (c : OrderBookLevel → OrderBookLevel → Option Ordering) :
    ∀ (l acc out : List OrderBookLevel),
      List.foldlM (fun acc x => insOpt c x acc) acc l = some out → out.Perm (acc ++ l) := by
  intro l
  induction l with
  | nil =>
    intro acc out h
    simp only [List.foldlM_nil, pure, Option.some_inj] at h
    rw [← h]
    simp
  | cons x t ih =>
    intro acc out h
    rw [List.foldlM_cons] at h
    rcases Option.bind_eq_some.mp h with ⟨acc', ha, hrest⟩
    have h1 := ih acc' out hrest
    have h2 := insOpt_perm c x acc acc' ha
    exact h1.trans ((h2.append_right t).trans List.perm_middle.symm)

theorem sortOpt_perm (c : OrderBookLevel → OrderBookLevel → Option Ordering)
    (l out : List OrderBookLevel) (h : sortOpt c l = some out) : out.Perm l := by
  have := sortOpt_aux_perm c l [] out h
  simpa using this

theorem insOpt_head (c : OrderBookLevel → OrderBookLevel → Option Ordering)
    (x : OrderBookLevel) (l out : List OrderBookLevel) (h : insOpt c x l = some out) :
    out.head? = some x ∨ out.head? = l.head? := by
  cases l with
  | nil =>
    simp only [insOpt, Option.some_inj] at h
    rw [← h]
    exact Or.inl rfl
  | cons y t =>
    simp only [insOpt] at h
    rcases hc : c x y with _ | o
    · rw [hc] at h
      simp at h
    rw [hc] at h
    cases o with
    | lt =>
      simp only [Option.some_inj] at h
      rw [← h]
      exact Or.inl rfl
    | eq =>
      rcases Option.map_eq_some'.mp h with ⟨t', _, hout⟩
      rw [← hout]
      exact Or.inr rfl
    | gt =>
      rcases Option.map_eq_some'.mp h with ⟨t', _, hout⟩
      rw [← hout]
      exact Or.inr rfl

theorem insOpt_chain (c : OrderBookLevel → OrderBookLevel → Option Ordering)
    (hswap : ∀ a b, c a b = (c b a).map Ordering.swap) (x : OrderBookLevel) :
    ∀ (l out : List OrderBookLevel), l.Chain' (leO c) → insOpt c x l = some out →
      out.Chain' (leO c) := by
  intro l
  induction l with
  | nil =>
    intro out _ h
    simp only [insOpt, Option.some_inj] at h
    rw [← h]
    exact List.chain'_singleton x
  | cons y t ih =>
    intro out hl h
    simp only [insOpt] at h
    rcases hc : c x y with _ | o
    · rw [hc] at h
      simp at h
    rw [hc] at h
    have hyx : ∀ o', c x y = some o' → o' ≠ .lt → leO c y x := by
      intro o' ho' hne
      have := hswap y x
      rw [ho'] at this
      cases o' with
      | lt => exact absurd rfl hne
      | eq => exact Or.inr this
      | gt => exact Or.inl this
    cases o with
    | lt =>
      simp only [Option.some_inj] at h
      rw [← h, List.chain'_cons]
      exact ⟨Or.inl hc, hl⟩
    | eq =>
      rcases Option.map_eq_some'.mp h with ⟨t', ht', hout⟩
      rw [← hout]
      have hct' := ih t' hl.tail ht'
      refine List.chain'_cons'.mpr ⟨?_, hct'⟩
      intro z hz
      rcases insOpt_head c x t t' ht' with hh | hh
      · rw [hz] at hh
        rw [Option.some_inj.mp hh]
        exact hyx .eq hc (by simp)
      · rw [hz] at hh
        exact (List.chain'_cons'.mp hl).1 z hh.symm
    | gt =>
      rcases Option.map_eq_some'.mp h with ⟨t', ht', hout⟩
      rw [← hout]
      have hct' := ih t' hl.tail ht'
      refine List.chain'_cons'.mpr ⟨?_, hct'⟩
      intro z hz
      rcases insOpt_head c x t t' ht' with hh | hh
      · rw [hz] at hh
        rw [Option.some_inj.mp hh]
        exact hyx .gt hc (by simp)
      · rw [hz] at hh
        exact (List.chain'_cons'.mp hl).1 z hh.symm

theorem sortOpt_chain (c : OrderBookLevel → OrderBookLevel → Option Ordering)
    (hswap : ∀ a b, c a b = (c b a).map Ordering.swap) :
    ∀ (l acc out : List OrderBookLevel), acc.Chain' (leO c) →
      List.foldlM (fun acc x => insOpt c x acc) acc l = some out →
      out.Chain' (leO c) := by
  intro l
  induction l with
  | nil =>
    intro acc out hacc h
    simp only [List.foldlM_nil, pure, Option.some_inj] at h
    rw [← h]
    exact hacc
  | cons x t ih =>
    intro acc out hacc h
    rw [List.foldlM_cons] at h
    rcases Option.bind_eq_some.mp h with ⟨acc', ha, hrest⟩
    exact ih acc' out (insOpt_chain c hswap x acc acc' hacc ha) hrest

theorem sortOpt_sorted (c : OrderBookLevel → OrderBookLevel → Option Ordering)
    (hswap : ∀ a b, c a b = (c b a).map Ordering.swap)
    (l out : List OrderBookLevel) (h : sortOpt c l = some out) : out.Chain' (leO c) :=
  sortOpt_chain c hswap l [] out List.chain'_nil h

theorem sortOpt_no_bad (c : OrderBookLevel → OrderBookLevel → Option Ordering)
    (P : OrderBookLevel → Prop)
    (hbad : ∀ x y, P x ∨ P y → c x y = none) :
    ∀ (l acc out : List OrderBookLevel),
      List.foldlM (fun acc x => insOpt c x acc) acc l = some out →
      ((∀ x ∈ acc, ¬ P x) ∨ ∃ b, P b ∧ acc = [b]) →
      2 ≤ out.length → ∀ x ∈ out, ¬ P x := by
  intro l
  induction l with
  | nil =>
    intro acc out h hinv hlen
    simp only [List.foldlM_nil, pure, Option.some_inj] at h
    rw [← h]
    rcases hinv with hgood | ⟨b, _, hb⟩
    · exact hgood
    · rw [← h, hb] at hlen
      simp at hlen
  | cons x t ih =>
    intro acc out h hinv hlen
    rw [List.foldlM_cons] at h
    rcases Option.bind_eq_some.mp h with ⟨acc', ha, hrest⟩
    refine ih acc' out hrest ?_ hlen
    rcases hinv with hgood | ⟨b, hPb, hb⟩
    · by_cases hPx : P x
      · cases hacc : acc with
        | nil =>
          rw [hacc] at ha
          simp only [insOpt, Option.some_inj] at ha
          exact Or.inr ⟨x, hPx, ha.symm⟩
        | cons y t2 =>
          rw [hacc] at ha
          simp only [insOpt] at ha
          rw [hbad x y (Or.inl hPx)] at ha
          simp at ha
      · have hperm := insOpt_perm c x acc acc' ha
        refine Or.inl (fun z hz => ?_)
        rcases List.mem_cons.mp (hperm.mem_iff.mp hz) with hzx | hzacc
        · rw [hzx]
          exact hPx
        · exact hgood z hzacc
    · rw [hb] at ha
      simp only [insOpt] at ha
      rw [hbad x b (Or.inr hPb)] at ha
      simp at ha

theorem insOpt_total (c : OrderBookLevel → OrderBookLevel → Option Ordering)
    (x : OrderBookLevel) :
    ∀ acc, (∀ y ∈ acc, c x y ≠ none) → ∃ out, insOpt c x acc = some out := by
  intro acc
  induction acc with
  | nil => exact fun _ => ⟨[x], rfl⟩
  | cons y t ih =>
    intro hc
    rcases ho : c x y with _ | o
    · exact absurd ho (hc y (by simp))
    cases o with
    | lt => exact ⟨x :: y :: t, by simp [insOpt, ho]⟩
    | eq =>
      rcases ih (fun z hz => hc z (List.mem_cons_of_mem _ hz)) with ⟨t', ht'⟩
      exact ⟨y :: t', by simp [insOpt, ho, ht']⟩
    | gt =>
      rcases ih (fun z hz => hc z (List.mem_cons_of_mem _ hz)) with ⟨t', ht'⟩
      exact ⟨y :: t', by simp [insOpt, ho, ht']⟩

theorem sortOpt_total_aux (c : OrderBookLevel → OrderBookLevel → Option Ordering)
    (S : OrderBookLevel → Prop) (hS : ∀ a b, S a → S b → c a b ≠ none) :
    ∀ (l acc : List OrderBookLevel), (∀ z ∈ l, S z) → (∀ z ∈ acc, S z) →
      ∃ out, List.foldlM (fun acc x => insOpt c x acc) acc l = some out ∧ ∀ z ∈ out, S z := by
  intro l
  induction l with
  | nil =>
    intro acc _ hacc
    exact ⟨acc, rfl, hacc⟩
  | cons x t ih =>
    intro acc hl hacc
    rcases insOpt_total c x acc
        (fun y hy => hS x y (hl x (by simp)) (hacc y hy)) with ⟨acc', ha⟩
    have hacc' : ∀ z ∈ acc', S z := by
      intro z hz
      rcases List.mem_cons.mp ((insOpt_perm c x acc acc' ha).mem_iff.mp hz) with hzx | hzacc
      · rw [hzx]
        exact hl x (by simp)
      · exact hacc z hzacc
    rcases ih acc' (fun z hz => hl z (List.mem_cons_of_mem _ hz)) hacc' with ⟨out, hout, hSout⟩
    refine ⟨out, ?_, hSout⟩
    rw [List.foldlM_cons, ha]
    simpa using hout

/-! ### Facts about the level comparators -/

theorem lvlCmp_swap (d : Bool) (a b : OrderBookLevel) :
    lvlCmp d a b = (lvlCmp d b a).map Ordering.swap := by
  cases d
  · exact Fp.cmpo_swap a.price b.price
  · exact Fp.cmpo_swap b.price a.price

theorem lvlCmp_none_of_nan (d : Bool) (a b : OrderBookLevel)
    (h : a.price = Fp.nan ∨ b.price = Fp.nan) : lvlCmp d a b = none := by
  cases d
  · exact Fp.cmpo_none_iff.mpr h
  · exact Fp.cmpo_none_iff.mpr h.symm

theorem lvlCmp_eq_price (d : Bool) (a b : OrderBookLevel)
    (h : lvlCmp d a b = some .eq) : a.price = b.price := by
  cases d
  · exact Fp.cmpo_eq_eq h
  · exact (Fp.cmpo_eq_eq h).symm

theorem lvlCmp_lt_trans (d : Bool) {a b e : OrderBookLevel}
    (h1 : lvlCmp d a b = some .lt) (h2 : lvlCmp d b e = some .lt) :
    lvlCmp d a e = some .lt := by
  cases d
  · exact Fp.cmpo_lt_trans h1 h2
  · exact Fp.cmpo_lt_trans h2 h1

/-! ### Order-book side invariants -/

/-- Strictly descending prices (the bid-side invariant of the data model). -/
def strictDesc (l : List OrderBookLevel) : Prop :=
  l.Chain' (fun a b => fpLt b.price a.price = true)

/-- Strictly ascending prices (the ask-side invariant of the data model). -/
def strictAsc (l : List OrderBookLevel) : Prop :=
  l.Chain' (fun a b => fpLt a.price b.price = true)

/-- Pairwise-distinct prices. -/
def pricesNodup (l : List OrderBookLevel) : Prop :=
  (l.map (fun lv => lv.price)).Nodup

/-- At most one level whose price Rust-equals any given price. -/
def uniqCnt (l : List OrderBookLevel) : Prop :=
  ∀ p : Fp, l.countP (fun lv => Fp.beq lv.price p) ≤ 1

instance (l : List OrderBookLevel) : Decidable (strictDesc l) :=
  inferInstanceAs
    (Decidable (l.Chain' (fun a b : OrderBookLevel => fpLt b.price a.price = true)))

instance (l : List OrderBookLevel) : Decidable (strictAsc l) :=
  inferInstanceAs
    (Decidable (l.Chain' (fun a b : OrderBookLevel => fpLt a.price b.price = true)))

instance (l : List OrderBookLevel) : Decidable (pricesNodup l) :=
  inferInstanceAs (Decidable ((l.map (fun lv : OrderBookLevel => lv.price)).Nodup))

theorem fpLt_true_iff {a b : Fp} : fpLt a b = true ↔ Fp.cmpo a b = some .lt := by
  simp [fpLt]

theorem fpGt_true_iff {a b : Fp} : fpGt a b = true ↔ Fp.cmpo a b = some .gt := by
  simp [fpGt]

theorem fpLe_true_iff {a b : Fp} :
    fpLe a b = true ↔ (Fp.cmpo a b = some .lt ∨ Fp.cmpo a b = some .eq) := by
  simp [fpLe]

theorem uniqCnt_of_nodup (l : List OrderBookLevel) (h : pricesNodup l) : uniqCnt l := by
  intro p
  have h1 : l.countP (fun lv => Fp.beq lv.price p) ≤
      l.countP (fun lv => lv.price == p) := by
    refine List.countP_mono_left (fun lv _ hb => ?_)
    have := (Fp.beq_eq_true_iff).mp hb
    simp [this.1]
  refine le_trans h1 ?_
  have h2 : l.countP (fun lv => lv.price == p) = (l.map (fun lv => lv.price)).count p := by
    rw [List.count_eq_countP, List.countP_map]
    rfl
  rw [h2]
  exact List.nodup_iff_count_le_one.mp h p

theorem nodup_of_uniqCnt_nonan (l : List OrderBookLevel) (hu : uniqCnt l)
    (hn : ∀ x ∈ l, ¬ x.price = Fp.nan) : pricesNodup l := by
  rw [pricesNodup, List.nodup_iff_count_le_one]
  intro p
  by_cases hp : p ∈ l.map (fun lv => lv.price)
  · have hpnan : p ≠ Fp.nan := by
      rcases List.mem_map.mp hp with ⟨lv, hlv, hple⟩
      rw [← hple]
      exact hn lv hlv
    have h2 : (l.map (fun lv => lv.price)).count p = l.countP (fun lv => lv.price == p) := by
      rw [List.count_eq_countP, List.countP_map]
      rfl
    rw [h2]
    have h3 : l.countP (fun lv => lv.price == p) =
        l.countP (fun lv => Fp.beq lv.price p) := by
      refine List.countP_congr (fun lv hlv => ?_)
      constructor
      · intro hb
        have : lv.price = p := by simpa using hb
        exact Fp.beq_eq_true_iff.mpr ⟨this, this ▸ hpnan⟩
      · intro hb
        have := (Fp.beq_eq_true_iff.mp hb).1
        simp [this]
    rw [h3]
    exact hu p
  · rw [List.count_eq_zero_of_not_mem hp]
    exact Nat.zero_le 1

theorem removeLevel_countP_le (p : Fp) (ls : List OrderBookLevel)
    (pred : OrderBookLevel → Bool) :
    (removeLevel p ls).countP pred ≤ ls.countP pred := by
  rw [removeLevel]
  exact (List.filter_sublist ls).countP_le pred

theorem applyPair_uniqCnt (ls : List OrderBookLevel) (u : String × String)
    (h : uniqCnt ls) : uniqCnt (applyPair ls u) := by
  intro p
  rw [applyPair]
  by_cases hq : Fp.beq (parsedQty u) (Fp.num 0) = true
  · simp only [hq, if_true]
    exact le_trans (removeLevel_countP_le _ _ _) (h p)
  · simp only [Bool.not_eq_true] at hq
    simp only [hq, Bool.false_eq_true, if_false]
    by_cases hf : (setFirstQty (parsedPrice u) (parsedQty u) ls).2 = true
    · simp only [hf, if_true]
      have hm := setFirstQty_map_price (parsedPrice u) (parsedQty u) ls
      have e1 : (setFirstQty (parsedPrice u) (parsedQty u) ls).1.countP
            (fun lv => Fp.beq lv.price p) =
          ((setFirstQty (parsedPrice u) (parsedQty u) ls).1.map
            (fun lv => lv.price)).countP (fun q => Fp.beq q p) := by
        rw [List.countP_map]
        rfl
      have e2 : ls.countP (fun lv => Fp.beq lv.price p) =
          (ls.map (fun lv => lv.price)).countP (fun q => Fp.beq q p) := by
        rw [List.countP_map]
        rfl
      rw [e1, hm, ← e2]
      exact h p
    · simp only [Bool.not_eq_true] at hf
      simp only [hf, Bool.false_eq_true, if_false]
      rw [List.countP_append]
      by_cases hb : Fp.beq (parsedPrice u) p = true
      · have hpp := Fp.beq_eq_true_iff.mp hb
        have hany := setFirstQty_snd (parsedPrice u) (parsedQty u) ls
        rw [hf] at hany
        have hzero : ls.countP (fun lv => Fp.beq lv.price p) = 0 := by
          rw [List.countP_eq_zero]
          intro lv hlv
          have hfalse := (List.any_eq_false.mp hany.symm) lv hlv
          rw [← hpp.1]
          simpa using hfalse
        rw [hzero, List.countP_singleton]
        split <;> omega
      · simp only [Bool.not_eq_true] at hb
        rw [List.countP_singleton]
        simp only [hb]
        simpa using h p

theorem foldl_applyPair_uniqCnt (us : List (String × String)) :
    ∀ ls, uniqCnt ls → uniqCnt (us.foldl applyPair ls) := by
  induction us with
  | nil => exact fun ls h => h
  | cons u t ih => exact fun ls h => ih _ (applyPair_uniqCnt ls u h)

theorem chain_strict_of_nodup (d : Bool) :
    ∀ (l : List OrderBookLevel), l.Chain' (leO (lvlCmp d)) → pricesNodup l →
      l.Chain' (fun a b => lvlCmp d a b = some .lt) := by
  intro l
  induction l with
  | nil => exact fun _ _ => List.chain'_nil
  | cons x t ih =>
    intro hc hn
    cases t with
    | nil => exact List.chain'_singleton x
    | cons y t2 =>
      rw [List.chain'_cons] at hc ⊢
      have hn' : pricesNodup (y :: t2) := by
        rw [pricesNodup] at hn ⊢
        exact (List.nodup_cons.mp hn).2
      refine ⟨?_, ih hc.2 hn'⟩
      rcases hc.1 with hlt | heq
      · exact hlt
      · exfalso
        have hpe := lvlCmp_eq_price d x y heq
        have hnotin := (List.nodup_cons.mp hn).1
        apply hnotin
        show x.price ∈ List.map (fun lv => lv.price) (y :: t2)
        rw [hpe]
        exact List.mem_map.mpr ⟨y, by simp, rfl⟩

theorem update_levels_invariant (ls : List OrderBookLevel) (us : List (String × String))
    (d : Bool) (out : List OrderBookLevel) (hn : uniqCnt ls)
    (h : update_levels ls us d = some out) :
    out.Chain' (fun a b => lvlCmp d a b = some .lt) ∧ pricesNodup out := by
  rw [update_levels] at h
  have hf : uniqCnt (us.foldl applyPair ls) := foldl_applyPair_uniqCnt us ls hn
  have hperm : out.Perm (us.foldl applyPair ls) := sortOpt_perm _ _ _ h
  have hchain : out.Chain' (leO (lvlCmp d)) := sortOpt_sorted _ (lvlCmp_swap d) _ _ h
  match out, hperm, hchain with
  | [], _, _ => exact ⟨List.chain'_nil, by simp [pricesNodup]⟩
  | [x], _, _ => exact ⟨List.chain'_singleton x, by simp [pricesNodup]⟩
  | x :: y :: t2, hperm, hchain =>
    have hlen : 2 ≤ (x :: y :: t2).length := by
      simp only [List.length_cons]
      omega
    have hnonan : ∀ z ∈ (x :: y :: t2), ¬ z.price = Fp.nan :=
      sortOpt_no_bad (lvlCmp d) (fun lv => lv.price = Fp.nan)
        (fun a b hab => lvlCmp_none_of_nan d a b hab)
        (us.foldl applyPair ls) [] (x :: y :: t2) h (Or.inl (by simp)) hlen
    have hu_out : uniqCnt (x :: y :: t2) := by
      intro p
      rw [hperm.countP_eq]
      exact hf p
    have hnd := nodup_of_uniqCnt_nonan _ hu_out hnonan
    exact ⟨chain_strict_of_nodup d _ hchain hnd, hnd⟩

theorem strictChain_desc {l : List OrderBookLevel} :
    l.Chain' (fun a b => lvlCmp true a b = some .lt) ↔ strictDesc l := by
  constructor <;> intro h <;> refine h.imp ?_ <;> intro a b hab
  · exact fpLt_true_iff.mpr hab
  · exact fpLt_true_iff.mp hab

theorem strictChain_asc {l : List OrderBookLevel} :
    l.Chain' (fun a b => lvlCmp false a b = some .lt) ↔ strictAsc l := by
  constructor <;> intro h <;> refine h.imp ?_ <;> intro a b hab
  · exact fpLt_true_iff.mpr hab
  · exact fpLt_true_iff.mp hab

/-! ### C3: accepted deltas preserve strict sortedness and price uniqueness -/

/-- C3: starting from a book whose bid side is strictly descending with
pairwise-distinct prices and whose ask side is strictly ascending with
pairwise-distinct prices, any accepted delta application leaves both sides
strictly sorted again (bids descending, asks ascending) with no two levels
sharing a price. -/
theorem delta_preserves_sorted_unique (b : OrderBook) (u : BinanceDepthUpdate) (now : Nat)
    (b' : OrderBook)
    (hbs : strictDesc b.bids) (hbn : pricesNodup b.bids)
    (has : strictAsc b.asks) (han : pricesNodup b.asks)
    (h : applyDepthUpdate b u now = some (b', true)) :
    strictDesc b'.bids ∧ pricesNodup b'.bids ∧ strictAsc b'.asks ∧ pricesNodup b'.asks := by
  unfold applyDepthUpdate at h
  by_cases hle : u.final_update_id ≤ b.last_update_id
  · rw [if_pos hle] at h
    simp at h
  · rw [if_neg hle] at h
    rcases hbids : update_levels b.bids u.bids true with _ | bids'
    · rw [hbids] at h
      simp at h
    rw [hbids] at h
    rcases hasks : update_levels b.asks u.asks false with _ | asks'
    · rw [hasks] at h
      simp at h
    rw [hasks] at h
    have hb' := Option.some_inj.mp h
    have hfst : ({ b with
        last_update_id := u.final_update_id
        bids := bids'
        asks := asks'
        update_type := .Delta
        timestamp := now } : OrderBook) = b' := congrArg Prod.fst hb'
    have hbids' : b'.bids = bids' := by
      rw [← hfst]
    have hasks' : b'.asks = asks' := by
      rw [← hfst]
    have hinvb := update_levels_invariant b.bids u.bids true bids'
      (uniqCnt_of_nodup _ hbn) hbids
    have hinva := update_levels_invariant b.asks u.asks false asks'
      (uniqCnt_of_nodup _ han) hasks
    rw [hbids', hasks']
    exact ⟨strictChain_desc.mp hinvb.1, hinvb.2, strictChain_asc.mp hinva.1, hinva.2⟩

theorem delta_preserves_sorted_unique_w :
    strictDesc [⟨Fp.num 2, Fp.num 1⟩, ⟨Fp.num 1, Fp.num 5⟩] ∧
    pricesNodup [⟨Fp.num 2, Fp.num 1⟩, ⟨Fp.num 1, Fp.num 5⟩] ∧
    strictAsc [⟨Fp.num 3, Fp.num 1⟩, ⟨Fp.num 4, Fp.num 6⟩] ∧
    pricesNodup [⟨Fp.num 3, Fp.num 1⟩, ⟨Fp.num 4, Fp.num 6⟩] :=
  delta_preserves_sorted_unique
    ⟨"s", 10, [⟨Fp.num 2, Fp.num 1⟩], [⟨Fp.num 3, Fp.num 1⟩], .Snapshot, 0⟩
    ⟨"depthUpdate", 0, "S", 11, 11, [("1", "5")], [("4", "6")]⟩ 1
    ⟨"s", 11, [⟨Fp.num 2, Fp.num 1⟩, ⟨Fp.num 1, Fp.num 5⟩],
      [⟨Fp.num 3, Fp.num 1⟩, ⟨Fp.num 4, Fp.num 6⟩], .Delta, 1⟩
    (List.chain'_singleton _) (by simp [pricesNodup]) (List.chain'_singleton _)
    (by simp [pricesNodup]) (by decide)

/-! ### C5: snapshot conversion — positivity, sortedness, and the failure
of strictness on duplicate-price responses -/

theorem snapshot_strict_sort_cex :
    convertSnapshot "x" ⟨5, [("1", "1"), ("1", "2")], []⟩ 0 =
      some ⟨"x", 5, [⟨Fp.num 1, Fp.num 1⟩, ⟨Fp.num 1, Fp.num 2⟩], [], .Snapshot, 0⟩ ∧
    ¬ strictDesc [⟨Fp.num 1, Fp.num 1⟩, ⟨Fp.num 1, Fp.num 2⟩] := by
  refine ⟨by decide, ?_⟩
  intro h
  rw [strictDesc, List.chain'_cons] at h
  have h1 := h.1
  rw [fpLt_true_iff] at h1
  simp [Fp.cmpo, qcmp] at h1

/-- C5 (amended): for every REST snapshot response whose conversion
completes, the produced book has only positive-quantity levels (levels
whose quantity string is unparsable default to 0.0 and are dropped rather
than aborting the fetch), bids sorted descending and asks ascending by
price — strictly so when the kept levels of the respective side have
pairwise-distinct prices.  (As stated, with strictness unconditional, the
claim fails on a response with two levels at one price; see the
counterexample.) -/
theorem snapshot_conversion_props (sym : String) (resp : BinanceOrderBookSnapshot)
    (now : Nat) (book : OrderBook) (h : convertSnapshot sym resp now = some book) :
    (∀ lv ∈ book.bids, fpGt lv.quantity (Fp.num 0) = true) ∧
    (∀ lv ∈ book.asks, fpGt lv.quantity (Fp.num 0) = true) ∧
    book.bids.Chain' (fun a b => fpLe b.price a.price = true) ∧
    book.asks.Chain' (fun a b => fpLe a.price b.price = true) ∧
    (pricesNodup (resp.bids.filterMap keepLevel) → strictDesc book.bids) ∧
    (pricesNodup (resp.asks.filterMap keepLevel) → strictAsc book.asks) := by
  rw [convertSnapshot] at h
  rcases hb : sortOpt (lvlCmp true) (resp.bids.filterMap keepLevel) with _ | bids'
  · rw [hb] at h
    simp at h
  rw [hb] at h
  rcases ha : sortOpt (lvlCmp false) (resp.asks.filterMap keepLevel) with _ | asks'
  · rw [ha] at h
    simp at h
  rw [ha] at h
  have hbook := Option.some_inj.mp h
  have hbids : book.bids = bids' := by
    rw [← hbook]
  have hasks : book.asks = asks' := by
    rw [← hbook]
  have hpb : bids'.Perm (resp.bids.filterMap keepLevel) := sortOpt_perm _ _ _ hb
  have hpa : asks'.Perm (resp.asks.filterMap keepLevel) := sortOpt_perm _ _ _ ha
  have hkeep : ∀ (pr : String × String) (lv : OrderBookLevel), keepLevel pr = some lv →
      fpGt lv.quantity (Fp.num 0) = true := by
    intro pr lv hl
    rw [keepLevel] at hl
    by_cases hc : fpGt (parsedQty pr) (Fp.num 0) = true
    · rw [if_pos hc] at hl
      rw [← Option.some_inj.mp hl]
      exact hc
    · rw [if_neg hc] at hl
      exact absurd hl (by simp)
  refine ⟨?_, ?_, ?_, ?_, ?_, ?_⟩
  · intro lv hlv
    rw [hbids] at hlv
    rcases List.mem_filterMap.mp (hpb.mem_iff.mp hlv) with ⟨pr, _, hl⟩
    exact hkeep pr lv hl
  · intro lv hlv
    rw [hasks] at hlv
    rcases List.mem_filterMap.mp (hpa.mem_iff.mp hlv) with ⟨pr, _, hl⟩
    exact hkeep pr lv hl
  · rw [hbids]
    refine (sortOpt_sorted _ (lvlCmp_swap true) _ _ hb).imp ?_
    intro a b hab
    exact fpLe_true_iff.mpr hab
  · rw [hasks]
    refine (sortOpt_sorted _ (lvlCmp_swap false) _ _ ha).imp ?_
    intro a b hab
    exact fpLe_true_iff.mpr hab
  · intro hnd
    rw [pricesNodup] at hnd
    rw [hbids]
    refine strictChain_desc.mp (chain_strict_of_nodup true _
      (sortOpt_sorted _ (lvlCmp_swap true) _ _ hb) ?_)
    rw [pricesNodup]
    exact ((hpb.map (fun lv => lv.price)).nodup_iff).mpr hnd
  · intro hnd
    rw [pricesNodup] at hnd
    rw [hasks]
    refine strictChain_asc.mp (chain_strict_of_nodup false _
      (sortOpt_sorted _ (lvlCmp_swap false) _ _ ha) ?_)
    rw [pricesNodup]
    exact ((hpa.map (fun lv => lv.price)).nodup_iff).mpr hnd

theorem snapshot_conversion_props_w :
    fpGt (⟨Fp.num 3, Fp.num 1⟩ : OrderBookLevel).quantity (Fp.num 0) = true ∧
    strictDesc [⟨Fp.num 3, Fp.num 1⟩, ⟨Fp.num 1, Fp.num 2⟩] := by
  have h := snapshot_conversion_props "y" ⟨7, [("3", "1"), ("2", "0"), ("1", "2")], [("5", "1")]⟩ 2
    ⟨"y", 7, [⟨Fp.num 3, Fp.num 1⟩, ⟨Fp.num 1, Fp.num 2⟩], [⟨Fp.num 5, Fp.num 1⟩], .Snapshot, 2⟩
    (by decide)
  refine ⟨h.1 _ (by decide), h.2.2.2.2.1 ?_⟩
  have e : ([("3", "1"), ("2", "0"), ("1", "2")] : List (String × String)).filterMap keepLevel =
      [⟨Fp.num 3, Fp.num 1⟩, ⟨Fp.num 1, Fp.num 2⟩] := by decide
  rw [pricesNodup, e]
  simp

/-! ### C8: the store and stream maps are keyed by the lowercased symbol -/

theorem upper_toNat_le {c : Char} (h : c.isUpper = true) : c.toNat ≤ 90 := by
  rw [Char.isUpper] at h
  have h2 := (Bool.and_eq_true _ _).mp h
  have h3 : c.val ≤ 90 := by simpa using h2.2
  rw [UInt32.le_def, BitVec.le_def] at h3
  exact h3

theorem charLower_toNat {c : Char} (h : c.isUpper = true) :
    (charLower c).toNat = c.toNat + 32 := by
  rw [charLower, if_pos h]
  have hle := upper_toNat_le h
  have hv : Char.isValidCharNat (c.toNat + 32) := Or.inl (by omega)
  rw [Char.ofNat, dif_pos hv]
  rfl

theorem charLower_ne {c : Char} (h : c.isUpper = true) : charLower c ≠ c := by
  intro he
  have h2 := charLower_toNat h
  rw [he] at h2
  omega

theorem map_eq_self_forall {α : Type} (f : α → α) :
    ∀ (l : List α), l.map f = l → ∀ x ∈ l, f x = x := by
  intro l
  induction l with
  | nil =>
    intro _ x hx
    cases hx
  | cons a t ih =>
    intro h x hx
    rw [List.map_cons] at h
    have h1 : f a = a := (List.cons_eq_cons.mp h).1
    have h2 : t.map f = t := (List.cons_eq_cons.mp h).2
    rcases List.mem_cons.mp hx with rfl | hxt
    · exact h1
    · exact ih h2 x hxt

theorem strLower_ne {s : String} (h : ∃ c ∈ s.data, c.isUpper = true) :
    strLower s ≠ s := by
  intro he
  rcases h with ⟨c, hc, hup⟩
  have hd : s.data.map charLower = s.data := congrArg String.data he
  exact charLower_ne hup (map_eq_self_forall charLower s.data hd c hc)

theorem alistInsert_lookup_self {α : Type} (k : String) (v : α) :
    ∀ m : List (String × α), (alistInsert k v m).lookup k = some v := by
  intro m
  induction m with
  | nil => simp [alistInsert, List.lookup]
  | cons p t ih =>
    rcases p with ⟨k', v'⟩
    rw [alistInsert]
    by_cases he : k' = k
    · rw [if_pos he]
      simp [List.lookup]
    · rw [if_neg he]
      rw [List.lookup]
      have : (k == k') = false := by
        simp [Ne.symm he]
      rw [this]
      exact ih

theorem alistInsert_lookup_ne {α : Type} (k q : String) (v : α) (hq : q ≠ k) :
    ∀ m : List (String × α), (alistInsert k v m).lookup q = m.lookup q := by
  intro m
  induction m with
  | nil =>
    simp only [alistInsert, List.lookup]
    have h : (q == k) = false := by simp [hq]
    rw [h]
  | cons p t ih =>
    rcases p with ⟨k', v'⟩
    rw [alistInsert]
    by_cases he : k' = k
    · rw [if_pos he, List.lookup, List.lookup, he]
      have h : (q == k) = false := by simp [hq]
      rw [h]
    · rw [if_neg he, List.lookup, List.lookup]
      by_cases hqk : q = k'
      · rw [hqk]
        simp
      · have h : (q == k') = false := by simp [hqk]
        rw [h]
        exact ih

theorem lookup_none_of_lower_keys {α : Type} (q : String) (hq : strLower q ≠ q) :
    ∀ m : List (String × α), (∀ p ∈ m, strLower p.1 = p.1) → m.lookup q = none := by
  intro m
  induction m with
  | nil => exact fun _ => rfl
  | cons p t ih =>
    rcases p with ⟨k, v⟩
    intro hk
    rw [List.lookup]
    by_cases he : q = k
    · exfalso
      apply hq
      rw [he]
      exact hk (k, v) (by simp)
    · have : (q == k) = false := by simp [he]
      rw [this]
      exact ih (fun p hp => hk p (List.mem_cons_of_mem _ hp))

theorem subscribe_ok_state (st : ClientState) (symbol : String)
    (fetch : String → Except BinanceError OrderBook) (snap : OrderBook)
    (hne : symbol.isEmpty = false) (hf : fetch (strLower symbol) = .ok snap) :
    ∃ evs,
      subscribe st symbol fetch =
        ⟨⟨alistInsert (strLower symbol) snap st.orderbooks,
          alistInsert (strLower symbol) (evs ++ [⟨snap, .Snapshot⟩])
            (if (st.orderbook_streams.lookup (strLower symbol)).isSome
             then st.orderbook_streams
             else alistInsert (strLower symbol) [] st.orderbook_streams)⟩,
         .ok (), true, [strLower symbol], [⟨snap, .Snapshot⟩]⟩ := by
  have hniv : ¬ symbol.isEmpty = true := by simp [hne]
  simp only [subscribe, if_neg hniv, hf]
  rcases hl : (if (st.orderbook_streams.lookup (strLower symbol)).isSome
      then st.orderbook_streams
      else alistInsert (strLower symbol) [] st.orderbook_streams).lookup (strLower symbol)
      with _ | evs
  · exfalso
    by_cases hs : (st.orderbook_streams.lookup (strLower symbol)).isSome = true
    · rw [if_pos hs] at hl
      rw [hl] at hs
      simp at hs
    · rw [if_neg hs] at hl
      rw [alistInsert_lookup_self] at hl
      simp at hl
  · exact ⟨evs, rfl⟩

/-- C8: the store and the stream map are keyed by the lowercased symbol
only.  If every existing key is already lowercase and `subscribe(symbol)`
succeeds for a symbol containing an uppercase ASCII letter, then reading
back with the original mixed-case symbol finds nothing — `get_orderbook`
returns `none` and `orderbook_stream` returns a `NoOrderBookStream` error —
while the same calls with the lowercased symbol succeed. -/
theorem store_keys_lowercased (st : ClientState) (symbol : String)
    (fetch : String → Except BinanceError OrderBook)
    (hkb : ∀ p ∈ st.orderbooks, strLower p.1 = p.1)
    (hks : ∀ p ∈ st.orderbook_streams, strLower p.1 = p.1)
    (hup : ∃ c ∈ symbol.data, c.isUpper = true)
    (hok : (subscribe st symbol fetch).result = .ok ()) :
    get_orderbook (subscribe st symbol fetch).state symbol = none ∧
    orderbook_stream (subscribe st symbol fetch).state symbol =
      .error (.NoOrderBookStream symbol) ∧
    (∃ bk, get_orderbook (subscribe st symbol fetch).state (strLower symbol) = some bk) ∧
    (∃ evs, orderbook_stream (subscribe st symbol fetch).state (strLower symbol) =
      .ok evs) := by
  have hlow : strLower symbol ≠ symbol := strLower_ne hup
  by_cases hemp : symbol.isEmpty = true
  · rw [subscribe, if_pos hemp] at hok
    simp at hok
  · rcases hf : fetch (strLower symbol) with e | snap
    · simp only [subscribe, if_neg hemp, hf] at hok
      simp at hok
    rcases subscribe_ok_state st symbol fetch snap (by simpa using hemp) hf with ⟨evs, hsub⟩
    rw [hsub]
    have hqb : st.orderbooks.lookup symbol = none :=
      lookup_none_of_lower_keys symbol hlow st.orderbooks hkb
    have hqs : st.orderbook_streams.lookup symbol = none :=
      lookup_none_of_lower_keys symbol hlow st.orderbook_streams hks
    refine ⟨?_, ?_, ?_, ?_⟩
    · rw [get_orderbook]
      rw [alistInsert_lookup_ne _ _ _ (Ne.symm hlow)]
      exact hqb
    · rw [orderbook_stream]
      rw [alistInsert_lookup_ne _ _ _ (Ne.symm hlow)]
      by_cases hs : (st.orderbook_streams.lookup (strLower symbol)).isSome = true
      · rw [if_pos hs, hqs]
      · rw [if_neg hs, alistInsert_lookup_ne _ _ _ (Ne.symm hlow), hqs]
    · refine ⟨snap, ?_⟩
      rw [get_orderbook, alistInsert_lookup_self]
    · refine ⟨evs ++ [⟨snap, .Snapshot⟩], ?_⟩
      rw [orderbook_stream, alistInsert_lookup_self]

theorem store_keys_lowercased_w :
    get_orderbook
      (subscribe ⟨[], []⟩ "BTCUSDT"
        (fun _ => .ok ⟨"x", 1, [], [], .Snapshot, 0⟩)).state "BTCUSDT" = none ∧
    orderbook_stream
      (subscribe ⟨[], []⟩ "BTCUSDT"
        (fun _ => .ok ⟨"x", 1, [], [], .Snapshot, 0⟩)).state "BTCUSDT" =
      .error (.NoOrderBookStream "BTCUSDT") :=
  ⟨(store_keys_lowercased ⟨[], []⟩ "BTCUSDT" _ (by simp) (by simp)
      (by decide) (by decide)).1,
   (store_keys_lowercased ⟨[], []⟩ "BTCUSDT" _ (by simp) (by simp)
      (by decide) (by decide)).2.1⟩

/-! ### C2: order independence of a batch — canonical form of the pair step -/

/-- Quantity replacement at one price, as a pointwise function. -/
def updIf (p q : Fp) (lv : OrderBookLevel) : OrderBookLevel :=
  if Fp.beq lv.price p then { lv with quantity := q } else lv

/-- Whether some level's price Rust-equals `p`. -/
def hasPrice (p : Fp) (ls : List OrderBookLevel) : Bool :=
  ls.any (fun lv => Fp.beq lv.price p)

/-- Levels with comparable (non-NaN) prices. -/
def nonNan (l : List OrderBookLevel) : Prop := ∀ lv ∈ l, lv.price ≠ Fp.nan

theorem updIf_price (p q : Fp) (lv : OrderBookLevel) : (updIf p q lv).price = lv.price := by
  rw [updIf]
  by_cases h : Fp.beq lv.price p = true
  · rw [if_pos h]
  · rw [if_neg h]

theorem Fp.beq_false_of_ne {a b : Fp} (h : a ≠ b) : Fp.beq a b = false := by
  by_cases hb : Fp.beq a b = true
  · exact absurd (Fp.beq_eq_true_iff.mp hb).1 h
  · simpa using hb

theorem applyPair_canon (ls : List OrderBookLevel) (u : String × String)
    (hc : ls.countP (fun lv => Fp.beq lv.price (parsedPrice u)) ≤ 1) :
    applyPair ls u =
      if Fp.beq (parsedQty u) (Fp.num 0) then removeLevel (parsedPrice u) ls
      else if hasPrice (parsedPrice u) ls then
        ls.map (updIf (parsedPrice u) (parsedQty u))
      else ls ++ [⟨parsedPrice u, parsedQty u⟩] := by
  by_cases hq : Fp.beq (parsedQty u) (Fp.num 0) = true
  · rw [if_pos hq, applyPair]
    simp only [hq, if_true]
  · simp only [Bool.not_eq_true] at hq
    rw [applyPair]
    simp only [hq, Bool.false_eq_true, if_false]
    by_cases hf : hasPrice (parsedPrice u) ls = true
    · rw [if_pos hf]
      have hsnd : (setFirstQty (parsedPrice u) (parsedQty u) ls).2 = true := by
        rw [setFirstQty_snd]
        exact hf
      rw [hsnd, if_pos rfl]
      have := setFirstQty_eq_map (parsedPrice u) (parsedQty u) ls hc
      rw [this]
      rfl
    · simp only [Bool.not_eq_true] at hf
      have hsnd : (setFirstQty (parsedPrice u) (parsedQty u) ls).2 = false := by
        rw [setFirstQty_snd]
        exact hf
      simp only [hsnd, hf, Bool.false_eq_true, if_false]

/-! Stability of the guards under the canonical operations at another price. -/

theorem hasPrice_removeLevel {pa pb : Fp} (hne : pa ≠ pb) (ls : List OrderBookLevel) :
    hasPrice pb (removeLevel pa ls) = hasPrice pb ls := by
  rw [hasPrice, hasPrice, removeLevel]
  by_cases h : ls.any (fun lv => Fp.beq lv.price pb) = true
  · rw [h]
    rcases List.any_eq_true.mp h with ⟨lv, hlv, hb⟩
    refine List.any_eq_true.mpr ⟨lv, List.mem_filter.mpr ⟨hlv, ?_⟩, hb⟩
    have h1 := Fp.beq_eq_true_iff.mp hb
    have : Fp.beq lv.price pa = false := by
      rw [h1.1]
      exact Fp.beq_false_of_ne (Ne.symm hne)
    simp [this]
  · simp only [Bool.not_eq_true] at h
    rw [h]
    rw [List.any_eq_false] at h ⊢
    intro lv hlv
    exact h lv (List.mem_filter.mp hlv).1

theorem hasPrice_map_updIf (pa qa pb : Fp) (ls : List OrderBookLevel) :
    hasPrice pb (ls.map (updIf pa qa)) = hasPrice pb ls := by
  rw [hasPrice, hasPrice, List.any_map]
  congr 1
  funext lv
  show Fp.beq (updIf pa qa lv).price pb = Fp.beq lv.price pb
  rw [updIf_price]

theorem hasPrice_append_single {pa pb : Fp} (hne : pa ≠ pb) (q : Fp)
    (ls : List OrderBookLevel) :
    hasPrice pb (ls ++ [⟨pa, q⟩]) = hasPrice pb ls := by
  rw [hasPrice, hasPrice, List.any_append]
  have : ([(⟨pa, q⟩ : OrderBookLevel)]).any (fun lv => Fp.beq lv.price pb) = false := by
    simp [Fp.beq_false_of_ne hne]
  rw [this, Bool.or_false]

/-! Commutation of the canonical operations at distinct prices. -/

theorem removeLevel_comm (pa pb : Fp) (ls : List OrderBookLevel) :
    removeLevel pb (removeLevel pa ls) = removeLevel pa (removeLevel pb ls) := by
  rw [removeLevel, removeLevel, removeLevel, removeLevel,
    List.filter_filter, List.filter_filter]
  congr 1
  funext lv
  rw [Bool.and_comm]

theorem removeLevel_map_updIf (pa qa pb : Fp) (ls : List OrderBookLevel) :
    removeLevel pb (ls.map (updIf pa qa)) = (removeLevel pb ls).map (updIf pa qa) := by
  rw [removeLevel, removeLevel, List.filter_map]
  congr 2
  funext lv
  show (!(Fp.beq (updIf pa qa lv).price pb)) = (!(Fp.beq lv.price pb))
  rw [updIf_price]

theorem removeLevel_append_single {pa pb : Fp} (hne : pa ≠ pb) (q : Fp)
    (ls : List OrderBookLevel) :
    removeLevel pb (ls ++ [⟨pa, q⟩]) = removeLevel pb ls ++ [⟨pa, q⟩] := by
  rw [removeLevel, removeLevel, List.filter_append]
  congr 1
  simp [Fp.beq_false_of_ne hne]

theorem updIf_pointwise_comm {pa pb : Fp} (hne : pa ≠ pb) (qa qb : Fp)
    (lv : OrderBookLevel) :
    updIf pa qa (updIf pb qb lv) = updIf pb qb (updIf pa qa lv) := by
  by_cases ha : Fp.beq lv.price pa = true
  · by_cases hb : Fp.beq lv.price pb = true
    · exfalso
      exact hne (((Fp.beq_eq_true_iff.mp ha).1).symm.trans (Fp.beq_eq_true_iff.mp hb).1)
    · simp [updIf, ha, hb]
  · by_cases hb : Fp.beq lv.price pb = true
    · simp [updIf, ha, hb]
    · simp [updIf, ha, hb]

theorem map_updIf_comm {pa pb : Fp} (hne : pa ≠ pb) (qa qb : Fp)
    (ls : List OrderBookLevel) :
    (ls.map (updIf pb qb)).map (updIf pa qa) =
      (ls.map (updIf pa qa)).map (updIf pb qb) := by
  rw [List.map_map, List.map_map]
  congr 1
  funext lv
  exact updIf_pointwise_comm hne qa qb lv

theorem map_updIf_append_single {pa pb : Fp} (hne : pb ≠ pa) (qa q : Fp)
    (ls : List OrderBookLevel) :
    (ls ++ [(⟨pb, q⟩ : OrderBookLevel)]).map (updIf pa qa) =
      ls.map (updIf pa qa) ++ [(⟨pb, q⟩ : OrderBookLevel)] := by
  rw [List.map_append]
  congr 1
  have hb : Fp.beq (⟨pb, q⟩ : OrderBookLevel).price pa = false := Fp.beq_false_of_ne hne
  show [updIf pa qa ⟨pb, q⟩] = [⟨pb, q⟩]
  rw [updIf, hb]
  simp

/-! Preservation of the side invariants by the pair step. -/

theorem hasPrice_false_not_mem {p : Fp} (hp : p ≠ Fp.nan) {ls : List OrderBookLevel}
    (hf : hasPrice p ls = false) : p ∉ ls.map (fun lv => lv.price) := by
  intro hmem
  rcases List.mem_map.mp hmem with ⟨lv, hlv, hple⟩
  have := (List.any_eq_false.mp hf) lv hlv
  apply this
  rw [hple]
  exact Fp.beq_eq_true_iff.mpr ⟨rfl, hp⟩

theorem applyPair_nonNan (ls : List OrderBookLevel) (u : String × String)
    (hc : ls.countP (fun lv => Fp.beq lv.price (parsedPrice u)) ≤ 1)
    (hn : nonNan ls) (hp : parsedPrice u ≠ Fp.nan) : nonNan (applyPair ls u) := by
  rw [applyPair_canon ls u hc]
  by_cases hq : Fp.beq (parsedQty u) (Fp.num 0) = true
  · rw [if_pos hq]
    intro lv hlv
    exact hn lv (List.mem_filter.mp hlv).1
  · rw [if_neg hq]
    by_cases hf : hasPrice (parsedPrice u) ls = true
    · rw [if_pos hf]
      intro lv hlv
      rcases List.mem_map.mp hlv with ⟨lv0, hlv0, hupd⟩
      rw [← hupd]
      have : (updIf (parsedPrice u) (parsedQty u) lv0).price = lv0.price := updIf_price _ _ _
      rw [this]
      exact hn lv0 hlv0
    · rw [if_neg hf]
      intro lv hlv
      rcases List.mem_append.mp hlv with hmem | hmem
      · exact hn lv hmem
      · rw [List.mem_singleton.mp hmem]
        exact hp

theorem applyPair_pricesNodup (ls : List OrderBookLevel) (u : String × String)
    (hc : ls.countP (fun lv => Fp.beq lv.price (parsedPrice u)) ≤ 1)
    (hnd : pricesNodup ls) (hp : parsedPrice u ≠ Fp.nan) :
    pricesNodup (applyPair ls u) := by
  rw [applyPair_canon ls u hc]
  by_cases hq : Fp.beq (parsedQty u) (Fp.num 0) = true
  · rw [if_pos hq]
    rw [pricesNodup] at hnd ⊢
    exact ((List.filter_sublist ls).map (fun lv => lv.price)).nodup hnd
  · rw [if_neg hq]
    by_cases hf : hasPrice (parsedPrice u) ls = true
    · rw [if_pos hf]
      rw [pricesNodup] at hnd ⊢
      have : (ls.map (updIf (parsedPrice u) (parsedQty u))).map (fun lv => lv.price) =
          ls.map (fun lv => lv.price) := by
        rw [List.map_map]
        congr 1
        funext lv
        show (updIf (parsedPrice u) (parsedQty u) lv).price = lv.price
        exact updIf_price _ _ _
      rw [this]
      exact hnd
    · simp only [Bool.not_eq_true] at hf
      rw [if_neg (by simp [hf])]
      rw [pricesNodup] at hnd ⊢
      rw [List.map_append]
      refine ((List.perm_append_singleton _ _).nodup_iff).mpr ?_
      rw [List.nodup_cons]
      exact ⟨hasPrice_false_not_mem hp hf, hnd⟩

theorem any_perm {l1 l2 : List OrderBookLevel} (h : l1.Perm l2)
    (p : OrderBookLevel → Bool) : l1.any p = l2.any p := by
  by_cases ha : l1.any p = true
  · rcases List.any_eq_true.mp ha with ⟨x, hx, hpx⟩
    rw [ha, Eq.comm]
    exact List.any_eq_true.mpr ⟨x, h.mem_iff.mp hx, hpx⟩
  · simp only [Bool.not_eq_true] at ha
    rw [ha, Eq.comm]
    rw [List.any_eq_false] at ha ⊢
    intro x hx
    exact ha x (h.mem_iff.mpr hx)

theorem applyPair_perm (ls1 ls2 : List OrderBookLevel) (u : String × String)
    (hperm : ls1.Perm ls2)
    (hc : ls1.countP (fun lv => Fp.beq lv.price (parsedPrice u)) ≤ 1) :
    (applyPair ls1 u).Perm (applyPair ls2 u) := by
  have hc2 : ls2.countP (fun lv => Fp.beq lv.price (parsedPrice u)) ≤ 1 := by
    rw [← hperm.countP_eq]
    exact hc
  rw [applyPair_canon ls1 u hc, applyPair_canon ls2 u hc2]
  have hg : hasPrice (parsedPrice u) ls1 = hasPrice (parsedPrice u) ls2 :=
    any_perm hperm _
  by_cases hq : Fp.beq (parsedQty u) (Fp.num 0) = true
  · rw [if_pos hq, if_pos hq]
    exact hperm.filter _
  · rw [if_neg hq, if_neg hq, ← hg]
    by_cases hf : hasPrice (parsedPrice u) ls1 = true
    · rw [if_pos hf, if_pos hf]
      exact hperm.map _
    · rw [if_neg hf, if_neg hf]
      exact hperm.append_right _

theorem applyPair_swap (ls : List OrderBookLevel) (a b : String × String)
    (hne : parsedPrice a ≠ parsedPrice b)
    (hna : parsedPrice a ≠ Fp.nan) (hnb : parsedPrice b ≠ Fp.nan)
    (hnd : pricesNodup ls) :
    (applyPair (applyPair ls a) b).Perm (applyPair (applyPair ls b) a) := by
  have hu : uniqCnt ls := uniqCnt_of_nodup ls hnd
  have hca := hu (parsedPrice a)
  have hcb := hu (parsedPrice b)
  have hcb2 := applyPair_uniqCnt ls a hu (parsedPrice b)
  have hca2 := applyPair_uniqCnt ls b hu (parsedPrice a)
  rw [applyPair_canon (applyPair ls a) b hcb2, applyPair_canon (applyPair ls b) a hca2,
    applyPair_canon ls a hca, applyPair_canon ls b hcb]
  by_cases hqa : Fp.beq (parsedQty a) (Fp.num 0) = true
  · by_cases hqb : Fp.beq (parsedQty b) (Fp.num 0) = true
    · simp only [hqa, hqb, if_true]
      rw [removeLevel_comm]
    · simp only [Bool.not_eq_true] at hqb
      simp only [hqa, hqb, if_true, Bool.false_eq_true, if_false]
      rw [hasPrice_removeLevel hne]
      by_cases hfb : hasPrice (parsedPrice b) ls = true
      · simp only [hfb, if_true]
        rw [removeLevel_map_updIf]
      · simp only [Bool.not_eq_true] at hfb
        simp only [hfb, Bool.false_eq_true, if_false]
        rw [removeLevel_append_single (Ne.symm hne)]
  · simp only [Bool.not_eq_true] at hqa
    by_cases hqb : Fp.beq (parsedQty b) (Fp.num 0) = true
    · simp only [hqa, hqb, if_true, Bool.false_eq_true, if_false]
      rw [hasPrice_removeLevel (Ne.symm hne)]
      by_cases hfa : hasPrice (parsedPrice a) ls = true
      · simp only [hfa, if_true]
        rw [removeLevel_map_updIf]
      · simp only [Bool.not_eq_true] at hfa
        simp only [hfa, Bool.false_eq_true, if_false]
        rw [removeLevel_append_single hne]
    · simp only [Bool.not_eq_true] at hqb
      simp only [hqa, hqb, Bool.false_eq_true, if_false]
      by_cases hfa : hasPrice (parsedPrice a) ls = true
      · by_cases hfb : hasPrice (parsedPrice b) ls = true
        · simp only [hfa, hfb, if_true]
          rw [hasPrice_map_updIf, hasPrice_map_updIf]
          simp only [hfa, hfb, if_true]
          rw [map_updIf_comm (Ne.symm hne)]
        · simp only [Bool.not_eq_true] at hfb
          simp only [hfa, hfb, if_true, Bool.false_eq_true, if_false]
          rw [hasPrice_map_updIf, hasPrice_append_single (Ne.symm hne)]
          simp only [hfa, hfb, if_true, Bool.false_eq_true, if_false]
          rw [map_updIf_append_single (Ne.symm hne)]
      · simp only [Bool.not_eq_true] at hfa
        by_cases hfb : hasPrice (parsedPrice b) ls = true
        · simp only [hfa, hfb, if_true, Bool.false_eq_true, if_false]
          rw [hasPrice_append_single hne, hasPrice_map_updIf]
          simp only [hfa, hfb, if_true, Bool.false_eq_true, if_false]
          rw [map_updIf_append_single hne]
        · simp only [Bool.not_eq_true] at hfb
          simp only [hfa, hfb, Bool.false_eq_true, if_false]
          rw [hasPrice_append_single hne, hasPrice_append_single (Ne.symm hne)]
          simp only [hfa, hfb, Bool.false_eq_true, if_false]
          rw [List.append_assoc, List.append_assoc]
          exact List.Perm.append_left ls (List.Perm.swap _ _ _)

theorem foldl_applyPair_perm (t : List (String × String)) :
    ∀ ls1 ls2, ls1.Perm ls2 → uniqCnt ls1 →
      (t.foldl applyPair ls1).Perm (t.foldl applyPair ls2) := by
  induction t with
  | nil => exact fun _ _ h _ => h
  | cons u r ih =>
    intro ls1 ls2 hperm hu
    simp only [List.foldl_cons]
    exact ih _ _ (applyPair_perm ls1 ls2 u hperm (hu _)) (applyPair_uniqCnt ls1 u hu)

theorem foldl_applyPair_nodup_nonNan (t : List (String × String)) :
    ∀ ls, pricesNodup ls → nonNan ls → (∀ u ∈ t, parsedPrice u ≠ Fp.nan) →
      pricesNodup (t.foldl applyPair ls) ∧ nonNan (t.foldl applyPair ls) := by
  induction t with
  | nil => exact fun _ h1 h2 _ => ⟨h1, h2⟩
  | cons u r ih =>
    intro ls h1 h2 h3
    simp only [List.foldl_cons]
    have hu := uniqCnt_of_nodup ls h1
    exact ih _ (applyPair_pricesNodup ls u (hu _) h1 (h3 u (by simp)))
      (applyPair_nonNan ls u (hu _) h2 (h3 u (by simp)))
      (fun v hv => h3 v (List.mem_cons_of_mem _ hv))

theorem foldl_applyPair_batch_perm {us1 us2 : List (String × String)} (hperm : us1.Perm us2) :
    ∀ ls, pricesNodup ls → nonNan ls →
      (∀ u ∈ us1, parsedPrice u ≠ Fp.nan) → (us1.map parsedPrice).Nodup →
      (us1.foldl applyPair ls).Perm (us2.foldl applyPair ls) := by
  induction hperm with
  | nil =>
    intro ls _ _ _ _
    exact List.Perm.refl _
  | cons x h ih =>
    intro ls hnd hnn hna hnodup
    simp only [List.foldl_cons]
    simp only [List.map_cons] at hnodup
    have hu := uniqCnt_of_nodup ls hnd
    exact ih _ (applyPair_pricesNodup ls x (hu _) hnd (hna x (by simp)))
      (applyPair_nonNan ls x (hu _) hnn (hna x (by simp)))
      (fun v hv => hna v (List.mem_cons_of_mem _ hv))
      (List.nodup_cons.mp hnodup).2
  | swap x y t =>
    intro ls hnd hnn hna hnodup
    simp only [List.foldl_cons]
    have hy : parsedPrice y ≠ Fp.nan := hna y (by simp)
    have hx : parsedPrice x ≠ Fp.nan := hna x (by simp)
    have hxy : parsedPrice y ≠ parsedPrice x := by
      simp only [List.map_cons] at hnodup
      have h1 := (List.nodup_cons.mp hnodup).1
      intro he
      apply h1
      rw [he]
      exact List.mem_cons_self _ _
    have hswap := applyPair_swap ls y x hxy hy hx hnd
    have hu := uniqCnt_of_nodup ls hnd
    have hu2 : uniqCnt (applyPair (applyPair ls y) x) :=
      applyPair_uniqCnt _ x (applyPair_uniqCnt ls y hu)
    exact foldl_applyPair_perm t _ _ hswap hu2
  | trans h1 h2 ih1 ih2 =>
    intro ls hnd hnn hna hnodup
    refine (ih1 ls hnd hnn hna hnodup).trans (ih2 ls hnd hnn ?_ ?_)
    · intro v hv
      exact hna v (h1.mem_iff.mpr hv)
    · exact ((h1.map parsedPrice).nodup_iff).mp hnodup

theorem lvlCmp_ne_none (d : Bool) (a b : OrderBookLevel)
    (hx : a.price ≠ Fp.nan) (hy : b.price ≠ Fp.nan) : lvlCmp d a b ≠ none := by
  intro h
  cases d
  · rcases Fp.cmpo_none_iff.mp h with h1 | h1
    · exact hx h1
    · exact hy h1
  · rcases Fp.cmpo_none_iff.mp h with h1 | h1
    · exact hy h1
    · exact hx h1

theorem sortOpt_eq_of_perm (d : Bool) (l1 l2 : List OrderBookLevel)
    (hperm : l1.Perm l2) (hnd : pricesNodup l1) (hnn : nonNan l1) :
    sortOpt (lvlCmp d) l1 = sortOpt (lvlCmp d) l2 := by
  have hnn2 : nonNan l2 := fun lv h => hnn lv (hperm.mem_iff.mpr h)
  have hnd2 : pricesNodup l2 := by
    rw [pricesNodup] at hnd ⊢
    exact ((hperm.map (fun lv => lv.price)).nodup_iff).mp hnd
  rcases sortOpt_total_aux (lvlCmp d) (fun lv => lv.price ≠ Fp.nan)
      (fun x y hxx hyy => lvlCmp_ne_none d x y hxx hyy) l1 [] hnn (by simp)
    with ⟨o1, h1, _⟩
  rcases sortOpt_total_aux (lvlCmp d) (fun lv => lv.price ≠ Fp.nan)
      (fun x y hxx hyy => lvlCmp_ne_none d x y hxx hyy) l2 [] hnn2 (by simp)
    with ⟨o2, h2, _⟩
  have hs1 : sortOpt (lvlCmp d) l1 = some o1 := h1
  have hs2 : sortOpt (lvlCmp d) l2 = some o2 := h2
  rw [hs1, hs2]
  have hp1 : o1.Perm l1 := sortOpt_perm _ _ _ hs1
  have hp2 : o2.Perm l2 := sortOpt_perm _ _ _ hs2
  have hnd1 : pricesNodup o1 := by
    rw [pricesNodup] at hnd ⊢
    exact ((hp1.map (fun lv => lv.price)).nodup_iff).mpr hnd
  have hnd2o : pricesNodup o2 := by
    rw [pricesNodup] at hnd2 ⊢
    exact ((hp2.map (fun lv => lv.price)).nodup_iff).mpr hnd2
  have hc1 : o1.Chain' (fun a b => lvlCmp d a b = some .lt) :=
    chain_strict_of_nodup d o1 (sortOpt_sorted _ (lvlCmp_swap d) _ _ hs1) hnd1
  have hc2 : o2.Chain' (fun a b => lvlCmp d a b = some .lt) :=
    chain_strict_of_nodup d o2 (sortOpt_sorted _ (lvlCmp_swap d) _ _ hs2) hnd2o
  letI : IsTrans OrderBookLevel (fun a b => lvlCmp d a b = some .lt) :=
    ⟨fun _ _ _ ha hb => lvlCmp_lt_trans d ha hb⟩
  letI : IsAntisymm OrderBookLevel (fun a b => lvlCmp d a b = some .lt) :=
    ⟨fun a b ha hb => by
      exfalso
      have hsw := lvlCmp_swap d a b
      rw [ha, hb] at hsw
      simp [Ordering.swap] at hsw⟩
  have heq : o1 = o2 :=
    List.eq_of_perm_of_sorted (hp1.trans (hperm.trans hp2.symm))
      (List.chain'_iff_pairwise.mp hc1) (List.chain'_iff_pairwise.mp hc2)
  rw [heq]

/-! ### C2: the claim and its settlement -/

theorem batch_reorder_cex :
    ([("1", "2"), ("1", "1")] : List (String × String)).Perm [("1", "1"), ("1", "2")] ∧
    update_levels [] [("1", "2"), ("1", "1")] true ≠
      update_levels [] [("1", "1"), ("1", "2")] true := by
  constructor
  · exact List.Perm.swap _ _ _
  · decide

/-- C2 (amended): applying a batch of raw level pairs to one side produces
the same final level list for every permutation of the batch, provided the
existing levels have comparable (non-NaN) pairwise-distinct prices and the
batch's parsed prices are comparable and pairwise distinct.  (As stated,
for arbitrary batches, the claim fails: two pairs at one price do not
commute; see the counterexample.) -/
theorem batch_order_invariance (ls : List OrderBookLevel) (us1 us2 : List (String × String))
    (d : Bool) (hperm : us1.Perm us2)
    (hnd : pricesNodup ls) (hnn : nonNan ls)
    (hup : ∀ u ∈ us1, parsedPrice u ≠ Fp.nan)
    (hund : (us1.map parsedPrice).Nodup) :
    update_levels ls us1 d = update_levels ls us2 d := by
  rw [update_levels, update_levels]
  have hfold := foldl_applyPair_batch_perm hperm ls hnd hnn hup hund
  have hinv := foldl_applyPair_nodup_nonNan us1 ls hnd hnn hup
  exact sortOpt_eq_of_perm d _ _ hfold hinv.1 hinv.2

theorem batch_order_invariance_w :
    update_levels [⟨Fp.num 5, Fp.num 1⟩] [("1", "2"), ("3", "4")] true =
      update_levels [⟨Fp.num 5, Fp.num 1⟩] [("3", "4"), ("1", "2")] true :=
  batch_order_invariance _ _ _ true (List.Perm.swap _ _ _) (by simp [pricesNodup])
    (by
      intro lv h
      rw [List.mem_singleton] at h
      rw [h]
      simp)
    (by decide) (by decide)
